import Mathlib

/-!
Shallow embedding of the `heap` Go package (heap.go): a generic array-backed
binary min-heap with a caller-supplied strict "less" comparator, plus the
`Concurrent` wrapper type.

Modelling conventions:
* Go slices become `List E`; the Go `int` becomes `Int` (indices are bounded by
  the slice length in every reachable state, so 64-bit overflow is immaterial;
  the source's `j1 < 0` overflow guard is kept verbatim and is reachable here
  only for negative inputs, exactly as in the unoverflowed source semantics).
* An out-of-bounds slice access panics in Go; every operation that can panic
  therefore returns `Option` here, with `none` modelling the runtime fault.
* Methods that mutate `h.e` in place become functions returning the new state.
* `iter.Seq` push-iteration is modelled by running the `Queue` loop against an
  explicit consumer `yield : S → E → Bool × S` (the Bool is Go's "continue").
-/

namespace HeapVerify

variable {E : Type}

/-- Go slice read `e[i]` for an `int` index: `none` models the bounds panic. -/
def elemAt (e : List E) (i : Int) : Option E :=
  if i < 0 then none else e[i.toNat]?

/-- Go slice write `e[i] = x` for an `int` index: `none` models the bounds panic. -/
def setAt (e : List E) (i : Int) (x : E) : Option (List E) :=
  if 0 ≤ i ∧ i.toNat < e.length then some (e.set i.toNat x) else none

/-- heap.go `swap`: `h.e[i], h.e[j] = h.el(j), h.el(i)` (both reads, then both writes). -/
def swap (e : List E) (i j : Int) : Option (List E) :=
  match elemAt e i, elemAt e j with
  | some a, some b =>
    match setAt e i b with
    | some e1 => setAt e1 j a
    | none => none
  | _, _ => none

/-- heap.go `less`: `h.l(h.el(i), h.el(j))`; `none` models a bounds panic in `el`. -/
def lessAt (l : E → E → Bool) (e : List E) (i j : Int) : Option Bool :=
  match elemAt e i, elemAt e j with
  | some x, some y => some (l x y)
  | _, _ => none

/-- The child-selection step inside heap.go `down`:
`j := j1; if j2 := j1 + 1; j2 < n && h.less(j2, j1) { j = j2 }`. -/
def pickChild (l : E → E → Bool) (e : List E) (i n : Int) : Option Int :=
  if 2 * i + 2 < n then
    (lessAt l e (2 * i + 2) (2 * i + 1)).map (fun b => if b then 2 * i + 2 else 2 * i + 1)
  else some (2 * i + 1)

/-- heap.go `down(i0, n)`: the sift-down loop. The state is the current list
and current index `i`; the result is the final list and final index (the Go
method returns `i > i0`, which callers recover by comparing the final index
with the start index). `none` models a bounds panic in `less`/`swap`. -/
def down (l : E → E → Bool) (e : List E) (i n : Int) : Option (List E × Int) :=
  if hstop : n ≤ 2 * i + 1 ∨ 2 * i + 1 < 0 then some (e, i)
  else
    match hj : pickChild l e i n with
    | none => none
    | some j =>
      match lessAt l e j i with
      | none => none
      | some false => some (e, i)
      | some true =>
        match swap e i j with
        | none => none
        | some e2 => down l e2 j n
termination_by (n - i).toNat
decreasing_by
  have hb : (j = 2 * i + 1 ∨ j = 2 * i + 2) ∧ 0 ≤ i ∧ i < j ∧ j < n := by
    unfold pickChild at hj
    split at hj
    · cases hl : lessAt l e (2 * i + 2) (2 * i + 1) with
      | none => rw [hl] at hj; simp at hj
      | some b => rw [hl] at hj; cases b <;> simp at hj <;> omega
    · simp only [Option.some.injEq] at hj
      omega
  omega

/-- heap.go `up(j)`: the sift-up loop; the current index is `j`, the parent is
`(j-1)/2` with Go's truncated integer division (`Int.tdiv`). -/
def up (l : E → E → Bool) (e : List E) (j : Int) : Option (List E) :=
  if hij : Int.tdiv (j - 1) 2 = j then some e
  else
    match hlt : lessAt l e j (Int.tdiv (j - 1) 2) with
    | none => none
    | some false => some e
    | some true =>
      match swap e (Int.tdiv (j - 1) 2) j with
      | some e2 => up l e2 (Int.tdiv (j - 1) 2)
      | none => none
termination_by j.toNat
decreasing_by
  have hjn : 0 ≤ j := by
    unfold lessAt elemAt at hlt
    by_cases h0 : j < 0
    · rw [if_pos h0] at hlt
      exact absurd hlt (by simp)
    · omega
  have hj1 : 1 ≤ j := by
    rcases Int.lt_or_le 0 j with h | h
    · omega
    · exfalso
      have : j = 0 := by omega
      subst this
      exact hij (by decide)
  rw [Int.tdiv_eq_ediv (by omega) (by omega)]
  omega

/-- heap.go `heap[E]`: the backing slice and the comparator closure. -/
structure heap (E : Type) where
  e : List E
  l : E → E → Bool

/-- heap.go `Len`. -/
def Len (h : heap E) : Int := h.e.length

/-- heap.go `el`. -/
def el (h : heap E) (i : Int) : Option E := elemAt h.e i

/-- heap.go `Peek`: returns `h.el(h.Len() - 1)` — the LAST slice element. -/
def Peek (h : heap E) : Option E := el h (Len h - 1)

/-- heap.go `pop` (unexported helper): `ret := h.Peek(); h.e = h.e[:h.Len()-1]`. -/
def pop (h : heap E) : Option (E × heap E) :=
  match Peek h with
  | none => none
  | some r => some (r, { h with e := h.e.take (h.e.length - 1) })

/-- heap.go `Push`: append, then sift up from the new last index. -/
def Push (h : heap E) (x : E) : Option (heap E) :=
  match up h.l (h.e ++ [x]) (((h.e ++ [x]).length : Int) - 1) with
  | none => none
  | some e2 => some { h with e := e2 }

/-- heap.go `Pop`: swap root and last, sift down over the shrunk window, then `pop`. -/
def Pop (h : heap E) : Option (E × heap E) :=
  match swap h.e 0 (Len h - 1) with
  | none => none
  | some e1 =>
    match down h.l e1 0 (Len h - 1) with
    | none => none
    | some (e2, _) => pop { h with e := e2 }

/-- heap.go `Remove(i)`: if `i` is not the last index, swap with last, sift
down over the shrunk window, fall back to sift up if no move; then `pop`. -/
def Remove (h : heap E) (i : Int) : Option (E × heap E) :=
  if Len h - 1 = i then pop h
  else
    match swap h.e i (Len h - 1) with
    | none => none
    | some e1 =>
      match down h.l e1 i (Len h - 1) with
      | none => none
      | some (e2, f) =>
        if i < f then pop { h with e := e2 }
        else
          match up h.l e2 i with
          | none => none
          | some e3 => pop { h with e := e3 }

/-- heap.go `Fix(i)`: sift down over the full length, fall back to sift up. -/
def Fix (h : heap E) (i : Int) : Option (heap E) :=
  match down h.l h.e i (Len h) with
  | none => none
  | some (e2, f) =>
    if i < f then some { h with e := e2 }
    else
      match up h.l e2 i with
      | none => none
      | some e3 => some { h with e := e3 }

/-- The loop of heap.go `Init`: `for i := n/2 - 1; i >= 0; i-- { h.down(i, n) }`. -/
def initLoop (l : E → E → Bool) (n : Int) (e : List E) (i : Int) : Option (List E) :=
  if 0 ≤ i then
    match down l e i n with
    | none => none
    | some (e2, _) => initLoop l n e2 (i - 1)
  else some e
termination_by (i + 1).toNat
decreasing_by omega

/-- heap.go `Init`: bottom-up heapify (`n` is read once before the loop). -/
def Init (h : heap E) : Option (heap E) :=
  match initLoop h.l (Len h) h.e (Int.tdiv (Len h) 2 - 1) with
  | none => none
  | some e2 => some { h with e := e2 }

/-- heap.go `New`: build the `heap` value and `Init` it. -/
def New (e : List E) (l : E → E → Bool) : Option (heap E) :=
  Init { e := e, l := l }

/-- heap.go `Queue` run against a consumer: the loop
`for h.Len() > 0 { if !yield(h.Pop()) { break } }` where the consumer `yield`
carries state `S` and answers Go's continue-Bool. The result is the final heap
state and final consumer state. -/
def Queue {S : Type} (h : heap E) (yield : S → E → Bool × S) (s : S) : Option (heap E × S) :=
  if hl : 0 < Len h then
    match hp : Pop h with
    | none => none
    | some (x, h2) =>
      let r := yield s x
      if r.1 then Queue h2 yield r.2 else some (h2, r.2)
  else some (h, s)
termination_by h.e.length
decreasing_by
  have hset : ∀ (e : List E) (i : Int) (x : E) (e' : List E), setAt e i x = some e' →
      e'.length = e.length := by
    intro e i x e' hs
    unfold setAt at hs
    split at hs
    · have := Option.some.inj hs
      rw [← this]
      simp
    · exact Option.noConfusion hs
  have hsw : ∀ (e : List E) (i j : Int) (e' : List E), swap e i j = some e' →
      e'.length = e.length := by
    intro e i j e' hs
    unfold swap at hs
    split at hs
    · split at hs
      · rename_i e1 hs1
        rw [hset e1 j _ e' hs, hset e i _ e1 hs1]
      · exact Option.noConfusion hs
    · exact Option.noConfusion hs
  have hdn : ∀ (m : Nat) (l : E → E → Bool) (e : List E) (i n : Int) (p : List E × Int),
      (n - i).toNat ≤ m → down l e i n = some p → p.1.length = e.length := by
    intro m
    induction m with
    | zero =>
      intro l e i n p hm hd
      rw [down] at hd
      split at hd
      · have := Option.some.inj hd
        rw [← this]
      · exfalso
        rename_i hstop
        omega
    | succ k ih =>
      intro l e i n p hm hd
      rw [down] at hd
      split at hd
      · have := Option.some.inj hd
        rw [← this]
      · rename_i hstop
        split at hd
        · exact Option.noConfusion hd
        · rename_i j hpk
          have hb : (j = 2 * i + 1 ∨ j = 2 * i + 2) ∧ 0 ≤ i ∧ i < j ∧ j < n := by
            unfold pickChild at hpk
            split at hpk
            · cases hl2 : lessAt l e (2 * i + 2) (2 * i + 1) with
              | none => rw [hl2] at hpk; simp at hpk
              | some b => rw [hl2] at hpk; cases b <;> simp at hpk <;> omega
            · simp only [Option.some.injEq] at hpk
              omega
          have harith : (n - j).toNat ≤ k := by omega
          split at hd
          · exact Option.noConfusion hd
          · have := Option.some.inj hd
            rw [← this]
          · split at hd
            · exact Option.noConfusion hd
            · rename_i e2 hswp
              have h1 := ih l e2 j n p harith hd
              rw [h1, hsw e i j e2 hswp]
  have hlen : h2.e.length = h.e.length - 1 := by
    unfold Pop at hp
    split at hp
    · exact Option.noConfusion hp
    · rename_i e1 hswp
      split at hp
      · exact Option.noConfusion hp
      · rename_i e2 ff hdw
        unfold pop at hp
        split at hp
        · exact Option.noConfusion hp
        · rename_i r hpe
          injection hp with hp'
          injection hp' with hx hh
          have hp2 : e2.length = e1.length := by
            have := hdn (Len h - 1 - 0).toNat h.l e1 0 (Len h - 1) (e2, ff) (by omega) hdw
            exact this
          rw [← hh]
          change (e2.take (e2.length - 1)).length = h.e.length - 1
          rw [List.length_take, hp2, hsw h.e 0 (Len h - 1) e1 hswp]
          unfold Len at hl
          omega
  have hpos : 0 < h.e.length := by
    unfold Len at hl
    omega
  omega

/-- Consumer that always continues and records every received element. -/
def yesYield : List E → E → Bool × List E := fun s x => (true, s ++ [x])

/-- Consumer that records received elements and answers "continue" while fewer
than `k` have been received, thereby stopping the drain after the `k`-th. -/
def countYield (k : Nat) : List E → E → Bool × List E :=
  fun s x => (decide (s.length + 1 < k), s ++ [x])

/-- `k`-fold iterated `Pop` (collects the popped elements in order). -/
def popN : Nat → heap E → Option (List E × heap E)
  | 0, h => some ([], h)
  | Nat.succ k, h =>
    match Pop h with
    | none => none
    | some (x, h2) =>
      match popN k h2 with
      | none => none
      | some (out, h3) => some (x :: out, h3)

/-- A value of Go interface type `Heap[E]`: either the plain engine `*heap[E]`
or the wrapper `*conHeap[E]` (which embeds another `Heap[E]`). The source
defines NO methods on `conHeap`, so every interface method is the promoted
method of the embedded heap; the `sync.Mutex` field is never locked and has no
observable state, so it does not appear in the model. -/
inductive HeapI (E : Type) where
  | plain : heap E → HeapI E
  | con : HeapI E → HeapI E

/-- heap.go `Concurrent`: return the argument if it is already a `*conHeap`,
otherwise wrap it. -/
def Concurrent (h : HeapI E) : HeapI E :=
  match h with
  | HeapI.con _ => h
  | HeapI.plain _ => HeapI.con h

/-- The heap engine at the bottom of a (possibly wrapped) interface value. -/
def inner : HeapI E → heap E
  | HeapI.plain h => h
  | HeapI.con hi => inner hi

/-- `Len` through the interface: on `conHeap` this is the promoted method of
the embedded heap (no lock is taken — none exists in the source). -/
def LenI : HeapI E → Int
  | HeapI.plain h => Len h
  | HeapI.con hi => LenI hi

/-- `Peek` through the interface (promoted method on `conHeap`). -/
def PeekI : HeapI E → Option E
  | HeapI.plain h => Peek h
  | HeapI.con hi => PeekI hi

/-- `Push` through the interface: the promoted method mutates the embedded
heap in place, so the wrapper keeps wrapping the updated engine. -/
def PushI : HeapI E → E → Option (HeapI E)
  | HeapI.plain h, x => (Push h x).map HeapI.plain
  | HeapI.con hi, x => (PushI hi x).map HeapI.con

/-- `Pop` through the interface (promoted method on `conHeap`). -/
def PopI : HeapI E → Option (E × HeapI E)
  | HeapI.plain h => (Pop h).map (fun p => (p.1, HeapI.plain p.2))
  | HeapI.con hi => (PopI hi).map (fun p => (p.1, HeapI.con p.2))

/-- `Remove` through the interface (promoted method on `conHeap`). -/
def RemoveI : HeapI E → Int → Option (E × HeapI E)
  | HeapI.plain h, i => (Remove h i).map (fun p => (p.1, HeapI.plain p.2))
  | HeapI.con hi, i => (RemoveI hi i).map (fun p => (p.1, HeapI.con p.2))

/-- `Fix` through the interface (promoted method on `conHeap`). -/
def FixI : HeapI E → Int → Option (HeapI E)
  | HeapI.plain h, i => (Fix h i).map HeapI.plain
  | HeapI.con hi, i => (FixI hi i).map HeapI.con

/-- `Queue` through the interface (promoted method on `conHeap`). -/
def QueueI {S : Type} (yield : S → E → Bool × S) : HeapI E → S → Option (HeapI E × S)
  | HeapI.plain h, s => (Queue h yield s).map (fun p => (HeapI.plain p.1, p.2))
  | HeapI.con hi, s => (QueueI yield hi s).map (fun p => (HeapI.con p.1, p.2))

/-- `c = 2p+1 ∨ c = 2p+2`: array index `c` is a child slot of index `p`. -/
def childIdx (p c : Int) : Prop := c = 2 * p + 1 ∨ c = 2 * p + 2

/-- The windowed heap invariant of the spec, restricted to parents `≥ lo`:
for every parent/child pair inside the window `[0, n)` with parent index at
least `lo`, the child is not less than the parent. -/
def WInv (l : E → E → Bool) (e : List E) (n lo : Int) : Prop :=
  ∀ p c x y, lo ≤ p → childIdx p c → c < n →
    elemAt e c = some x → elemAt e p = some y → l x y = false

/-- The binary min-heap invariant for a heap value (spec §3). -/
def heapInv (h : heap E) : Prop :=
  WInv h.l h.e (h.e.length : Int) 0

/-- Comparator contract of the spec: a strict weak ordering, presented as
asymmetry plus negative transitivity. -/
def SWOrd (l : E → E → Bool) : Prop :=
  (∀ a b, l a b = true → l b a = false) ∧
  (∀ a b c, l a b = false → l b c = false → l a c = false)

/-- Executable check of the heap invariant for one parent index. -/
def pairOkB (l : E → E → Bool) (e : List E) (p : Nat) : Bool :=
  (match e[2 * p + 1]?, e[p]? with
   | some x, some y => !(l x y)
   | _, _ => true) &&
  (match e[2 * p + 2]?, e[p]? with
   | some x, some y => !(l x y)
   | _, _ => true)

/-- Executable check of the full heap invariant. -/
def heapInvB (l : E → E → Bool) (e : List E) : Bool :=
  (List.range e.length).all (pairOkB l e)

/-- `k` is `i` or a descendant of `i` in the implicit binary tree. -/
def isDesc (i : Nat) (k : Nat) : Bool :=
  if k = i then true
  else if k ≤ i then false
  else isDesc i ((k - 1) / 2)
termination_by k
decreasing_by omega

/-- Postcondition of one full `down` run started at `i` with window `n`:
length and membership preservation, two value frames (indices outside the
subtree of `i`, and indices at or beyond the window, are untouched), the origin
of the value left at `i`, the characterization of a no-move run, and
restoration of the windowed invariant. -/
def DownPost (l : E → E → Bool) (e : List E) (i n : Int) (e' : List E) (f : Int) : Prop :=
  e'.length = e.length ∧
  (∀ x, x ∈ e' → x ∈ e) ∧
  (∀ k : Int, 0 ≤ k → isDesc i.toNat k.toNat = false → elemAt e' k = elemAt e k) ∧
  (∀ k : Int, n ≤ k → elemAt e' k = elemAt e k) ∧
  ((f = i ∧ e' = e) ∨ (i < f ∧ ∃ c, childIdx i c ∧ c < n ∧ elemAt e' i = elemAt e c)) ∧
  (SWOrd l → f = i →
    ∀ c x y, childIdx i c → c < n → elemAt e c = some x → elemAt e i = some y →
      l x y = false) ∧
  (SWOrd l → WInv l e n (i + 1) → WInv l e' n i)

/-- Heap-except-at-`j` precondition for `up` with window `m`: every pair not
touching `j` holds, every pair with parent `j` holds, and the children of `j`
also satisfy the pair against the parent of `j` (the bridge condition). -/
def ExceptAt (l : E → E → Bool) (e : List E) (m j : Int) : Prop :=
  (∀ p c x y, childIdx p c → p ≠ j → c ≠ j → c < m →
    elemAt e c = some x → elemAt e p = some y → l x y = false) ∧
  (∀ c x y, childIdx j c → c < m → elemAt e c = some x → elemAt e j = some y →
    l x y = false) ∧
  (∀ c x y, 0 < j → childIdx j c → c < m → elemAt e c = some x →
    elemAt e (Int.tdiv (j - 1) 2) = some y → l x y = false)

/-- Concrete strict comparator on Nat, used to instantiate the generic heap. -/
def natLess : Nat → Nat → Bool := fun a b => decide (a < b)

/-- Concrete strict comparator on Bool (false before true). -/
def boolLess : Bool → Bool → Bool := fun a b => !a && b

/-! ### Basic facts about the primitive operations -/

theorem elemAt_neg {e : List E} {i : Int} (h : i < 0) : elemAt e i = none := by
  unfold elemAt
  rw [if_pos h]

theorem elemAt_nonneg {e : List E} {i : Int} (h : 0 ≤ i) : elemAt e i = e[i.toNat]? := by
  unfold elemAt
  rw [if_neg (by omega)]

theorem elemAt_some_bounds {e : List E} {i : Int} {x : E} (h : elemAt e i = some x) :
    0 ≤ i ∧ i < (e.length : Int) := by
  by_cases h0 : i < 0
  · rw [elemAt_neg h0] at h
    exact Option.noConfusion h
  · rw [elemAt_nonneg (by omega)] at h
    rcases List.getElem?_eq_some.mp h with ⟨hb, _⟩
    omega

theorem elemAt_total {e : List E} {i : Int} (h0 : 0 ≤ i) (h1 : i < (e.length : Int)) :
    ∃ x, elemAt e i = some x := by
  rw [elemAt_nonneg h0]
  refine ⟨e.get ⟨i.toNat, by omega⟩, ?_⟩
  rw [List.getElem?_eq_getElem (by omega)]
  rfl

theorem elemAt_set {e : List E} {m : Nat} {x : E} (hm : m < e.length) (k : Int) :
    elemAt (e.set m x) k = if k = (m : Int) then some x else elemAt e k := by
  by_cases h0 : k < 0
  · rw [elemAt_neg h0, if_neg (by omega), elemAt_neg h0]
  · rw [elemAt_nonneg (by omega), elemAt_nonneg (by omega), List.getElem?_set]
    by_cases hk : k = (m : Int)
    · rw [if_pos hk, if_pos (by omega), if_pos (by omega)]
    · rw [if_neg (by omega), if_neg hk]

theorem elemAt_mem {e : List E} {i : Int} {x : E} (h : elemAt e i = some x) : x ∈ e := by
  rcases elemAt_some_bounds h with ⟨h0, _⟩
  rw [elemAt_nonneg h0] at h
  exact List.mem_iff_getElem?.mpr ⟨i.toNat, h⟩

theorem setAt_eq {e : List E} {i : Int} {x : E} (h0 : 0 ≤ i) (h1 : i < (e.length : Int)) :
    setAt e i x = some (e.set i.toNat x) := by
  unfold setAt
  rw [if_pos ⟨h0, by omega⟩]

theorem swap_spec {e : List E} {i j : Int} {a b : E}
    (ha : elemAt e i = some a) (hb : elemAt e j = some b) :
    ∃ e', swap e i j = some e' ∧
      e'.length = e.length ∧
      (∀ x, x ∈ e' → x ∈ e) ∧
      elemAt e' i = some b ∧
      elemAt e' j = some a ∧
      (∀ k : Int, k ≠ i → k ≠ j → elemAt e' k = elemAt e k) := by
  rcases elemAt_some_bounds ha with ⟨hi0, hi1⟩
  rcases elemAt_some_bounds hb with ⟨hj0, hj1⟩
  have hset1 : setAt e i b = some (e.set i.toNat b) := setAt_eq hi0 hi1
  have hlen1 : (e.set i.toNat b).length = e.length := by simp
  have hset2 : setAt (e.set i.toNat b) j a = some ((e.set i.toNat b).set j.toNat a) :=
    setAt_eq hj0 (by omega)
  refine ⟨(e.set i.toNat b).set j.toNat a, ?_, ?_, ?_, ?_, ?_, ?_⟩
  · simp only [swap, ha, hb, hset1, hset2]
  · simp
  · intro x hx
    rcases List.mem_or_eq_of_mem_set hx with hx1 | hx1
    · rcases List.mem_or_eq_of_mem_set hx1 with hx2 | hx2
      · exact hx2
      · rw [hx2]; exact elemAt_mem hb
    · rw [hx1]; exact elemAt_mem ha
  · rw [elemAt_set (by simp; omega) i]
    by_cases hij : i = j
    · rw [if_pos (by omega)]
      rw [hij] at ha
      rw [ha] at hb
      exact congrArg some (Option.some.inj hb)
    · rw [if_neg (by omega), elemAt_set (by omega) i, if_pos (by omega)]
  · rw [elemAt_set (by simp; omega) j, if_pos (by omega)]
  · intro k hki hkj
    rw [elemAt_set (by simp; omega) k, if_neg (by omega), elemAt_set (by omega) k,
      if_neg (by omega)]

theorem lessAt_eq {l : E → E → Bool} {e : List E} {i j : Int} {x y : E}
    (hx : elemAt e i = some x) (hy : elemAt e j = some y) :
    lessAt l e i j = some (l x y) := by
  unfold lessAt
  rw [hx, hy]

theorem lessAt_some {l : E → E → Bool} {e : List E} {i j : Int} {b : Bool}
    (h : lessAt l e i j = some b) :
    ∃ x y, elemAt e i = some x ∧ elemAt e j = some y ∧ b = l x y := by
  unfold lessAt at h
  rcases hx : elemAt e i with _ | x <;> rw [hx] at h
  · exact Option.noConfusion h
  · rcases hy : elemAt e j with _ | y <;> rw [hy] at h
    · exact Option.noConfusion h
    · exact ⟨x, y, rfl, rfl, (Option.some.inj h).symm⟩

/-! ### The strict-weak-ordering contract -/

theorem SWOrd.asymm {l : E → E → Bool} (h : SWOrd l) {a b : E} (hab : l a b = true) :
    l b a = false := h.1 a b hab

theorem SWOrd.negtrans {l : E → E → Bool} (h : SWOrd l) {a b c : E}
    (h1 : l a b = false) (h2 : l b c = false) : l a c = false := h.2 a b c h1 h2

theorem SWOrd.irrefl {l : E → E → Bool} (h : SWOrd l) (a : E) : l a a = false := by
  cases ha : l a a with
  | false => rfl
  | true =>
    have hf := h.1 a a ha
    rw [ha] at hf
    exact hf

theorem SWOrd.ltrans {l : E → E → Bool} (h : SWOrd l) {a b c : E}
    (h1 : l a b = true) (h2 : l b c = true) : l a c = true := by
  cases hac : l a c with
  | true => rfl
  | false =>
    exfalso
    have hcb : l c b = false := h.asymm h2
    have := h.negtrans hac hcb
    rw [h1] at this
    exact Bool.noConfusion this

/-! ### The descendant relation of the implicit tree -/

theorem isDesc_self (i : Nat) : isDesc i i = true := by
  rw [isDesc]
  simp

theorem isDesc_of_lt {i k : Nat} (h : k < i) : isDesc i k = false := by
  rw [isDesc, if_neg (by omega), if_pos (by omega)]

theorem isDesc_ge {i k : Nat} (h : isDesc i k = true) : i ≤ k := by
  by_contra hc
  rw [isDesc_of_lt (by omega)] at h
  exact Bool.noConfusion h

theorem isDesc_child {i c : Nat} (h : c = 2 * i + 1 ∨ c = 2 * i + 2) : isDesc i c = true := by
  rw [isDesc, if_neg (by omega), if_neg (by omega)]
  have hpar : (c - 1) / 2 = i := by omega
  rw [hpar, isDesc_self]

theorem isDesc_trans {i j k : Nat} (hij : isDesc i j = true) (hjk : isDesc j k = true) :
    isDesc i k = true := by
  revert hjk
  induction k using Nat.strong_induction_on with
  | _ k ih =>
    intro hjk
    rw [isDesc] at hjk
    by_cases h1 : k = j
    · subst h1; exact hij
    · rw [if_neg h1] at hjk
      by_cases h2 : k ≤ j
      · rw [if_pos h2] at hjk; exact Bool.noConfusion hjk
      · rw [if_neg h2] at hjk
        have hrec := ih ((k - 1) / 2) (by omega) hjk
        have hik : i ≤ j := isDesc_ge hij
        rw [isDesc, if_neg (by omega), if_neg (by omega)]
        exact hrec

theorem isDesc_lb {j k : Nat} (h : isDesc j k = true) : k = j ∨ 2 * j + 1 ≤ k := by
  revert h
  induction k using Nat.strong_induction_on with
  | _ k ih =>
    intro h
    rw [isDesc] at h
    by_cases h1 : k = j
    · exact Or.inl h1
    · rw [if_neg h1] at h
      by_cases h2 : k ≤ j
      · rw [if_pos h2] at h; exact Bool.noConfusion h
      · rw [if_neg h2] at h
        rcases ih ((k - 1) / 2) (by omega) h with h3 | h3 <;> right <;> omega

/-! ### Facts about the windowed invariant -/

theorem childIdx_or {p c : Int} (h : childIdx p c) : c = 2 * p + 1 ∨ c = 2 * p + 2 := h

theorem WInv_mono {l : E → E → Bool} {e : List E} {n lo lo' : Int}
    (h : WInv l e n lo) (hle : lo ≤ lo') : WInv l e n lo' := by
  intro p c x y hp hc hcn hcx hpy
  exact h p c x y (by omega) hc hcn hcx hpy

theorem WInv_congr {l : E → E → Bool} {e e' : List E} {n lo : Int}
    (hsame : ∀ k : Int, 0 ≤ k → k < n → elemAt e' k = elemAt e k)
    (h : WInv l e n lo) : WInv l e' n lo := by
  intro p c x y hp hc hcn hcx hpy
  rcases elemAt_some_bounds hcx with ⟨hc0, _⟩
  rcases elemAt_some_bounds hpy with ⟨hp0, _⟩
  have hpn : p < n := by rcases childIdx_or hc with h1 | h1 <;> omega
  rw [hsame c hc0 hcn] at hcx
  rw [hsame p hp0 hpn] at hpy
  exact h p c x y hp hc hcn hcx hpy

theorem WInv_extend {l : E → E → Bool} {e : List E} {n lo : Int} (h : WInv l e n (lo + 1))
    (hnew : ∀ c x y, childIdx lo c → c < n → elemAt e c = some x → elemAt e lo = some y →
      l x y = false) :
    WInv l e n lo := by
  intro p c x y hp hc hcn hcx hpy
  by_cases hplo : p = lo
  · subst hplo; exact hnew c x y hc hcn hcx hpy
  · exact h p c x y (by omega) hc hcn hcx hpy

theorem WInv_extend_vac {l : E → E → Bool} {e : List E} {n lo : Int}
    (h : WInv l e n (lo + 1)) (hvac : n ≤ 2 * lo + 1) : WInv l e n lo := by
  refine WInv_extend h (fun c x y hc hcn _ _ => absurd hcn ?_)
  rcases childIdx_or hc with h1 | h1 <;> omega

/-! ### One-step evaluation lemmas for the loop functions -/

theorem down_stop {l : E → E → Bool} {e : List E} {i n : Int}
    (hstop : n ≤ 2 * i + 1 ∨ 2 * i + 1 < 0) : down l e i n = some (e, i) := by
  rw [down, dif_pos hstop]

theorem down_noswap {l : E → E → Bool} {e : List E} {i n j : Int}
    (hstop : ¬(n ≤ 2 * i + 1 ∨ 2 * i + 1 < 0)) (hpk : pickChild l e i n = some j)
    (hlt : lessAt l e j i = some false) : down l e i n = some (e, i) := by
  rw [down, dif_neg hstop]
  split
  · rename_i heq
    rw [hpk] at heq
    exact Option.noConfusion heq
  · rename_i j2 heq
    rw [hpk] at heq
    have hj2 : j = j2 := Option.some.inj heq
    subst hj2
    rw [hlt]

theorem down_go {l : E → E → Bool} {e : List E} {i n j : Int} {e2 : List E}
    (hstop : ¬(n ≤ 2 * i + 1 ∨ 2 * i + 1 < 0)) (hpk : pickChild l e i n = some j)
    (hlt : lessAt l e j i = some true) (hsw : swap e i j = some e2) :
    down l e i n = down l e2 j n := by
  conv_lhs => rw [down]
  rw [dif_neg hstop]
  split
  · rename_i heq
    rw [hpk] at heq
    exact Option.noConfusion heq
  · rename_i j2 heq
    rw [hpk] at heq
    have hj2 : j = j2 := Option.some.inj heq
    subst hj2
    rw [hlt, hsw]

theorem up_stop1 {l : E → E → Bool} {e : List E} {j : Int}
    (h : Int.tdiv (j - 1) 2 = j) : up l e j = some e := by
  rw [up, dif_pos h]

theorem up_stop2 {l : E → E → Bool} {e : List E} {j : Int}
    (h : ¬Int.tdiv (j - 1) 2 = j) (hlt : lessAt l e j (Int.tdiv (j - 1) 2) = some false) :
    up l e j = some e := by
  rw [up, dif_neg h, hlt]

theorem up_go {l : E → E → Bool} {e : List E} {j : Int} {e2 : List E}
    (h : ¬Int.tdiv (j - 1) 2 = j) (hlt : lessAt l e j (Int.tdiv (j - 1) 2) = some true)
    (hsw : swap e (Int.tdiv (j - 1) 2) j = some e2) :
    up l e j = up l e2 (Int.tdiv (j - 1) 2) := by
  conv_lhs => rw [up]
  rw [dif_neg h, hlt, hsw]

theorem initLoop_neg {l : E → E → Bool} {n : Int} {e : List E} {i : Int} (h : i < 0) :
    initLoop l n e i = some e := by
  rw [initLoop, if_neg (by omega)]

theorem initLoop_step {l : E → E → Bool} {n : Int} {e : List E} {i : Int} {e2 : List E} {f : Int}
    (h : 0 ≤ i) (hd : down l e i n = some (e2, f)) :
    initLoop l n e i = initLoop l n e2 (i - 1) := by
  conv_lhs => rw [initLoop]
  rw [if_pos h, hd]

theorem Queue_stop {S : Type} {h : heap E} {yield : S → E → Bool × S} {s : S}
    (hl : ¬0 < Len h) : Queue h yield s = some (h, s) := by
  rw [Queue, dif_neg hl]

theorem Queue_step {S : Type} {h : heap E} {yield : S → E → Bool × S} {s : S}
    {x : E} {h2 : heap E} {s2 : S}
    (hl : 0 < Len h) (hp : Pop h = some (x, h2)) (hy : yield s x = (true, s2)) :
    Queue h yield s = Queue h2 yield s2 := by
  conv_lhs => rw [Queue]
  rw [dif_pos hl]
  split
  · rename_i heq
    rw [hp] at heq
    exact Option.noConfusion heq
  · rename_i x2 h2b heq
    rw [hp] at heq
    injection heq with heq2
    injection heq2 with hx hh
    subst hx
    subst hh
    rw [hy]
    simp

theorem Queue_break {S : Type} {h : heap E} {yield : S → E → Bool × S} {s : S}
    {x : E} {h2 : heap E} {s2 : S}
    (hl : 0 < Len h) (hp : Pop h = some (x, h2)) (hy : yield s x = (false, s2)) :
    Queue h yield s = some (h2, s2) := by
  rw [Queue, dif_pos hl]
  split
  · rename_i heq
    rw [hp] at heq
    exact Option.noConfusion heq
  · rename_i x2 h2b heq
    rw [hp] at heq
    injection heq with heq2
    injection heq2 with hx hh
    subst hx
    subst hh
    rw [hy]
    simp

/-! ### The main lemma for the sift-down loop -/

theorem pickChild_total {l : E → E → Bool} {e : List E} {i n : Int}
    (hstop : ¬(n ≤ 2 * i + 1 ∨ 2 * i + 1 < 0)) (hlen : n ≤ (e.length : Int)) :
    ∃ j, pickChild l e i n = some j := by
  unfold pickChild
  split
  · obtain ⟨x1, h1⟩ := elemAt_total (e := e) (i := 2 * i + 1) (by omega) (by omega)
    obtain ⟨x2, h2⟩ := elemAt_total (e := e) (i := 2 * i + 2) (by omega) (by omega)
    rw [lessAt_eq h2 h1]
    exact ⟨_, rfl⟩
  · exact ⟨_, rfl⟩

theorem pickChild_facts {l : E → E → Bool} {e : List E} {i n j : Int}
    (hstop : ¬(n ≤ 2 * i + 1 ∨ 2 * i + 1 < 0)) (hpk : pickChild l e i n = some j) :
    childIdx i j ∧ 0 ≤ i ∧ i < j ∧ j < n := by
  unfold pickChild at hpk
  split at hpk
  · cases hl : lessAt l e (2 * i + 2) (2 * i + 1) with
    | none => rw [hl] at hpk; simp at hpk
    | some b =>
      rw [hl] at hpk
      cases b <;> simp at hpk <;>
        exact ⟨by unfold childIdx; omega, by omega, by omega, by omega⟩
  · have hj := Option.some.inj hpk
    exact ⟨by unfold childIdx; omega, by omega, by omega, by omega⟩

theorem pickChild_min {l : E → E → Bool} {e : List E} {i n j : Int}
    (hsw : SWOrd l) (hstop : ¬(n ≤ 2 * i + 1 ∨ 2 * i + 1 < 0))
    (hpk : pickChild l e i n = some j) {xj : E} (hxj : elemAt e j = some xj) :
    ∀ c x, childIdx i c → c < n → elemAt e c = some x → l x xj = false := by
  unfold pickChild at hpk
  split at hpk
  · rename_i h22
    cases hlt2 : lessAt l e (2 * i + 2) (2 * i + 1) with
    | none => rw [hlt2] at hpk; simp at hpk
    | some b =>
      rw [hlt2] at hpk
      obtain ⟨x2, x1, hx2, hx1, hb⟩ := lessAt_some hlt2
      cases b with
      | true =>
        have hj : j = 2 * i + 2 := by simp at hpk; omega
        subst hj
        have hxj2 : x2 = xj := by rw [hx2] at hxj; exact Option.some.inj hxj
        intro c x hc hcn hcx
        rcases childIdx_or hc with h1 | h1 <;> subst h1
        · have hx' : x = x1 := by rw [hx1] at hcx; exact (Option.some.inj hcx).symm
          subst hx'
          rw [← hxj2]
          exact hsw.asymm hb.symm
        · have hx' : x = x2 := by rw [hx2] at hcx; exact (Option.some.inj hcx).symm
          subst hx'
          rw [← hxj2]
          exact hsw.irrefl x
      | false =>
        have hj : j = 2 * i + 1 := by simp at hpk; omega
        subst hj
        have hxj1 : x1 = xj := by rw [hx1] at hxj; exact Option.some.inj hxj
        intro c x hc hcn hcx
        rcases childIdx_or hc with h1 | h1 <;> subst h1
        · have hx' : x = x1 := by rw [hx1] at hcx; exact (Option.some.inj hcx).symm
          subst hx'
          rw [← hxj1]
          exact hsw.irrefl x
        · have hx' : x = x2 := by rw [hx2] at hcx; exact (Option.some.inj hcx).symm
          subst hx'
          rw [← hxj1]
          exact hb.symm
  · rename_i h22
    have hj : 2 * i + 1 = j := Option.some.inj hpk
    subst hj
    intro c x hc hcn hcx
    rcases childIdx_or hc with h1 | h1
    · subst h1
      have hx' : x = xj := by rw [hcx] at hxj; exact Option.some.inj hxj
      subst hx'
      exact hsw.irrefl x
    · exfalso
      omega

theorem down_main_stop {l : E → E → Bool} {e : List E} {i n : Int}
    (hstop : n ≤ 2 * i + 1 ∨ 2 * i + 1 < 0) (hi : 0 ≤ i) :
    DownPost l e i n e i := by
  refine ⟨rfl, fun x hx => hx, fun k _ _ => rfl, fun k _ => rfl, Or.inl ⟨rfl, rfl⟩, ?_, ?_⟩
  · intro _ _ c x y hc hcn hcx hpy
    exfalso
    rcases childIdx_or hc with h1 | h1 <;> omega
  · intro _ hinv
    exact WInv_extend_vac hinv (by omega)

theorem down_main {l : E → E → Bool} {n : Int} :
    ∀ (m : Nat) (e : List E) (i : Int),
      (n - i).toNat ≤ m → 0 ≤ i → n ≤ (e.length : Int) →
      ∃ e' f, down l e i n = some (e', f) ∧ DownPost l e i n e' f := by
  intro m
  induction m with
  | zero =>
    intro e i hm hi hlen
    exact ⟨e, i, down_stop (by omega), down_main_stop (by omega) hi⟩
  | succ m ih =>
    intro e i hm hi hlen
    by_cases hstop : n ≤ 2 * i + 1 ∨ 2 * i + 1 < 0
    · exact ⟨e, i, down_stop hstop, down_main_stop hstop hi⟩
    · obtain ⟨j, hpk⟩ := pickChild_total hstop hlen
      obtain ⟨hjc, _, hij, hjn⟩ := pickChild_facts hstop hpk
      have hjc' := childIdx_or hjc
      obtain ⟨xj, hxj⟩ := elemAt_total (e := e) (i := j) (by omega) (by omega)
      obtain ⟨xi, hxi⟩ := elemAt_total (e := e) (i := i) hi (by omega)
      have hlt : lessAt l e j i = some (l xj xi) := lessAt_eq hxj hxi
      cases hlv : l xj xi with
      | false =>
        rw [hlv] at hlt
        refine ⟨e, i, down_noswap hstop hpk hlt, rfl, fun x hx => hx, fun k _ _ => rfl,
          fun k _ => rfl, Or.inl ⟨rfl, rfl⟩, ?_, ?_⟩
        · intro hsw _ c x y hc hcn hcx hpy
          have hy : y = xi := by rw [hxi] at hpy; exact (Option.some.inj hpy).symm
          subst hy
          have hmin := pickChild_min hsw hstop hpk hxj c x hc hcn hcx
          exact hsw.negtrans hmin hlv
        · intro hsw hinv
          refine WInv_extend hinv ?_
          intro c x y hc hcn hcx hpy
          have hy : y = xi := by rw [hxi] at hpy; exact (Option.some.inj hpy).symm
          subst hy
          have hmin := pickChild_min hsw hstop hpk hxj c x hc hcn hcx
          exact hsw.negtrans hmin hlv
      | true =>
        rw [hlv] at hlt
        obtain ⟨e2, hswp, hlen2, hmem2, he2i, he2j, hfr2⟩ := swap_spec hxi hxj
        have hfuel : (n - j).toNat ≤ m := by omega
        have hj0 : (0 : Int) ≤ j := by omega
        have hlenj : n ≤ (e2.length : Int) := by rw [hlen2]; exact hlen
        have hdij : isDesc i.toNat j.toNat = true := isDesc_child (by omega)
        obtain ⟨e', f, hdeq, hplen, hpmem, hpfrD, hpfrW, hporig, hpstop, hpinv⟩ :=
          ih e2 j hfuel hj0 hlenj
        refine ⟨e', f, ?_, ?_, ?_, ?_, ?_, ?_, ?_, ?_⟩
        · rw [down_go hstop hpk hlt hswp, hdeq]
        · rw [hplen, hlen2]
        · intro x hx
          exact hmem2 x (hpmem x hx)
        · intro k hk0 hkd
          have hkne_i : k ≠ i := by
            intro hki
            subst hki
            rw [isDesc_self] at hkd
            exact Bool.noConfusion hkd
          have hkne_j : k ≠ j := by
            intro hkj
            subst hkj
            rw [hdij] at hkd
            exact Bool.noConfusion hkd
          have hkdj : isDesc j.toNat k.toNat = false := by
            cases hdj : isDesc j.toNat k.toNat with
            | false => rfl
            | true =>
              have := isDesc_trans hdij hdj
              rw [this] at hkd
              exact Bool.noConfusion hkd
          rw [hpfrD k hk0 hkdj, hfr2 k hkne_i hkne_j]
        · intro k hk
          rw [hpfrW k hk, hfr2 k (by omega) (by omega)]
        · right
          have hif : i < f := by
            rcases hporig with ⟨hfj, _⟩ | ⟨hjf, _⟩ <;> omega
          refine ⟨hif, j, hjc, hjn, ?_⟩
          rw [hpfrD i hi (isDesc_of_lt (by omega)), he2i, hxj]
        · intro _ hfi
          exfalso
          rcases hporig with ⟨hfj, _⟩ | ⟨hjf, _⟩ <;> omega
        · intro hsw hinv
          have hinv2 : WInv l e2 n (j + 1) := by
            intro p c x y hp hc hcn hcx hpy
            have hc' := childIdx_or hc
            rw [hfr2 c (by clear hporig; omega) (by clear hporig; omega)] at hcx
            rw [hfr2 p (by clear hporig; omega) (by clear hporig; omega)] at hpy
            exact hinv p c x y (by clear hporig; omega) hc hcn hcx hpy
          have hinvRec : WInv l e' n j := hpinv hsw hinv2
          intro p c x y hp hc hcn hcx hpy
          have hc' := childIdx_or hc
          rcases Int.lt_or_le p j with hpj | hpj
          · by_cases hpi : p = i
            · subst hpi
              have hyv : y = xj := by
                have hei : elemAt e' p = some xj := by
                  rw [hpfrD p hi (isDesc_of_lt (by clear hporig; omega)), he2i]
                rw [hei] at hpy
                exact (Option.some.inj hpy).symm
              subst hyv
              by_cases hcj : c = j
              · subst hcj
                rcases hporig with ⟨hfj, hee⟩ | ⟨hjf, c2, hc2, hc2n, horig⟩
                · subst hee
                  rw [he2j] at hcx
                  have hx : x = xi := (Option.some.inj hcx).symm
                  subst hx
                  exact hsw.asymm hlv
                · have hc2' := childIdx_or hc2
                  rw [horig, hfr2 c2 (by omega) (by omega)] at hcx
                  exact hinv c c2 x y (by omega) hc2 hc2n hcx hxj
              · have hnd : isDesc j.toNat c.toNat = false := by
                  clear hporig
                  cases hdj : isDesc j.toNat c.toNat with
                  | false => rfl
                  | true =>
                    exfalso
                    rcases isDesc_lb hdj with h1 | h1 <;> omega
                rw [hpfrD c (by clear hporig; omega) hnd,
                  hfr2 c (by clear hporig; omega) (by clear hporig; omega)] at hcx
                exact pickChild_min hsw hstop hpk hxj c x hc hcn hcx
            · have hpd : isDesc j.toNat p.toNat = false :=
                isDesc_of_lt (by clear hporig; omega)
              have hcd : isDesc j.toNat c.toNat = false := by
                clear hporig
                cases hdj : isDesc j.toNat c.toNat with
                | false => rfl
                | true =>
                  exfalso
                  rcases isDesc_lb hdj with h1 | h1 <;> omega
              rw [hpfrD c (by clear hporig; omega) hcd,
                hfr2 c (by clear hporig; omega) (by clear hporig; omega)] at hcx
              rw [hpfrD p (by clear hporig; omega) hpd,
                hfr2 p (by clear hporig; omega) (by clear hporig; omega)] at hpy
              exact hinv p c x y (by clear hporig; omega) hc hcn hcx hpy
          · exact hinvRec p c x y (by clear hporig; omega) hc hcn hcx hpy

/-! ### The main lemma for the sift-up loop -/

theorem parent_of_child {p c : Int} (hc : childIdx p c) (hp : 0 ≤ p) :
    Int.tdiv (c - 1) 2 = p := by
  rcases childIdx_or hc with h | h <;> subst h <;>
    rw [Int.tdiv_eq_ediv (by omega) (by omega)] <;> omega

theorem child_of_parent {j : Int} (hj : 1 ≤ j) :
    childIdx (Int.tdiv (j - 1) 2) j ∧ 0 ≤ Int.tdiv (j - 1) 2 ∧
    Int.tdiv (j - 1) 2 < j := by
  unfold childIdx
  rw [Int.tdiv_eq_ediv (by omega) (by omega)]
  omega

theorem parent_fix_zero {j : Int} (h0 : 0 ≤ j) (hij : Int.tdiv (j - 1) 2 = j) : j = 0 := by
  rcases Int.lt_or_le j 1 with h | h
  · omega
  · rw [Int.tdiv_eq_ediv (by omega) (by omega)] at hij
    omega

theorem ExceptAt_zero_inv {l : E → E → Bool} {e : List E} {m : Int}
    (hex : ExceptAt l e m 0) : WInv l e m 0 := by
  intro p c x y hp hc hcn hcx hpy
  by_cases hp0 : p = 0
  · subst hp0
    exact hex.2.1 c x y hc hcn hcx hpy
  · have hc' := childIdx_or hc
    exact hex.1 p c x y hc hp0 (by omega) hcn hcx hpy

theorem up_main {l : E → E → Bool} :
    ∀ (mf : Nat) (e : List E) (j : Int),
      j.toNat ≤ mf → 0 ≤ j → j < (e.length : Int) →
      ∃ e', up l e j = some e' ∧
        e'.length = e.length ∧
        (∀ x, x ∈ e' → x ∈ e) ∧
        (∀ k : Int, 0 ≤ k → isDesc k.toNat j.toNat = false → elemAt e' k = elemAt e k) ∧
        (∀ m : Int, SWOrd l → j < m → m ≤ (e.length : Int) → ExceptAt l e m j →
          WInv l e' m 0) := by
  intro mf
  induction mf with
  | zero =>
    intro e j hmf hj0 hjlen
    have hj : j = 0 := by omega
    subst hj
    refine ⟨e, up_stop1 (by decide), rfl, fun x hx => hx, fun k _ _ => rfl, ?_⟩
    intro m hsw hjm hmlen hex
    exact ExceptAt_zero_inv hex
  | succ mf ih =>
    intro e j hmf hj0 hjlen
    by_cases hij : Int.tdiv (j - 1) 2 = j
    · have hj : j = 0 := parent_fix_zero hj0 hij
      subst hj
      refine ⟨e, up_stop1 hij, rfl, fun x hx => hx, fun k _ _ => rfl, ?_⟩
      intro m hsw hjm hmlen hex
      exact ExceptAt_zero_inv hex
    · have hj1 : 1 ≤ j := by
        rcases Int.lt_or_le j 1 with h | h
        · exfalso
          have hj : j = 0 := by omega
          subst hj
          exact hij (by decide)
        · exact h
      obtain ⟨hchild, hpj0, hpjlt⟩ := child_of_parent hj1
      obtain ⟨xj, hxj⟩ := elemAt_total (e := e) (i := j) (by omega) (by omega)
      obtain ⟨xp, hxp⟩ := elemAt_total (e := e) (i := Int.tdiv (j - 1) 2) hpj0 (by omega)
      have hlt : lessAt l e j (Int.tdiv (j - 1) 2) = some (l xj xp) := lessAt_eq hxj hxp
      cases hlv : l xj xp with
      | false =>
        rw [hlv] at hlt
        refine ⟨e, up_stop2 hij hlt, rfl, fun x hx => hx, fun k _ _ => rfl, ?_⟩
        intro m hsw hjm hmlen hex
        intro p c x y hp hc hcn hcx hpy
        have hc' := childIdx_or hc
        rcases elemAt_some_bounds hpy with ⟨hpb, _⟩
        by_cases hpj : p = j
        · subst hpj
          exact hex.2.1 c x y hc hcn hcx hpy
        · by_cases hcj : c = j
          · subst hcj
            have hpar : p = Int.tdiv (c - 1) 2 := (parent_of_child hc hpb).symm
            have hxv : x = xj := by rw [hxj] at hcx; exact (Option.some.inj hcx).symm
            have hyv : y = xp := by
              rw [hpar] at hpy
              rw [hxp] at hpy
              exact (Option.some.inj hpy).symm
            subst hxv
            subst hyv
            exact hlv
          · exact hex.1 p c x y hc hpj hcj hcn hcx hpy
      | true =>
        rw [hlv] at hlt
        obtain ⟨e2, hswp, hlen2, hmem2, he2p, he2j, hfr2⟩ := swap_spec hxp hxj
        have hfuel : (Int.tdiv (j - 1) 2).toNat ≤ mf := by omega
        have hplen2 : Int.tdiv (j - 1) 2 < (e2.length : Int) := by
          rw [hlen2]
          omega
        obtain ⟨e', hueq, hulen, humem, hufr, huinv⟩ := ih e2 (Int.tdiv (j - 1) 2)
          hfuel hpj0 hplen2
        have hdpj : isDesc (Int.tdiv (j - 1) 2).toNat j.toNat = true :=
          isDesc_child (by rcases childIdx_or hchild with h | h <;> omega)
        refine ⟨e', ?_, ?_, ?_, ?_, ?_⟩
        · rw [up_go hij hlt hswp, hueq]
        · rw [hulen, hlen2]
        · intro x hx
          exact hmem2 x (humem x hx)
        · intro k hk0 hkd
          have hkj : k ≠ j := by
            intro hkj
            subst hkj
            rw [isDesc_self] at hkd
            exact Bool.noConfusion hkd
          have hkp : k ≠ Int.tdiv (j - 1) 2 := by
            intro hkp
            rw [hkp, hdpj] at hkd
            exact Bool.noConfusion hkd
          have hkdp : isDesc k.toNat (Int.tdiv (j - 1) 2).toNat = false := by
            cases hdk : isDesc k.toNat (Int.tdiv (j - 1) 2).toNat with
            | false => rfl
            | true =>
              have := isDesc_trans hdk hdpj
              rw [this] at hkd
              exact Bool.noConfusion hkd
          rw [hufr k hk0 hkdp, hfr2 k hkp hkj]
        · intro m hsw hjm hmlen hex
          refine huinv m hsw (by omega) (by rw [hlen2]; exact hmlen) ?_
          refine ⟨?_, ?_, ?_⟩
          · -- pairs that do not touch the parent index
            intro p c x y hc hpp hcp hcm hcx hpy
            have hc' := childIdx_or hc
            rcases elemAt_some_bounds hpy with ⟨hpb, _⟩
            rcases elemAt_some_bounds hcx with ⟨hcb, _⟩
            by_cases hpjq : p = j
            · rw [hpjq] at hc' hc hpy
              have hcgt : j < c := by omega
              rw [hfr2 c hcp (by omega)] at hcx
              rw [he2j] at hpy
              have hyv : y = xp := (Option.some.inj hpy).symm
              rw [hyv]
              exact hex.2.2 c x xp hj1 hc hcm hcx hxp
            · by_cases hcjq : c = j
              · exfalso
                have hpar : Int.tdiv (c - 1) 2 = p := parent_of_child hc hpb
                rw [hcjq] at hpar
                exact hpp hpar.symm
              · rw [hfr2 c hcp hcjq] at hcx
                rw [hfr2 p hpp hpjq] at hpy
                exact hex.1 p c x y hc hpjq hcjq hcm hcx hpy
          · -- pairs with the parent index as parent
            intro c x y hc hcm hcx hpy
            rw [he2p] at hpy
            have hyv : y = xj := (Option.some.inj hpy).symm
            rw [hyv]
            have hc' := childIdx_or hc
            by_cases hcj : c = j
            · rw [hcj, he2j] at hcx
              have hxv : x = xp := (Option.some.inj hcx).symm
              rw [hxv]
              exact hsw.asymm hlv
            · rw [hfr2 c (by omega) hcj] at hcx
              have hs : l x xp = false :=
                hex.1 (Int.tdiv (j - 1) 2) c x xp hc (by omega) hcj hcm hcx hxp
              cases hsx : l x xj with
              | false => rfl
              | true =>
                have hcontra := hsw.ltrans hsx hlv
                rw [hs] at hcontra
                exact Bool.noConfusion hcontra
          · -- bridge at the parent index
            intro c x y hppos hc hcm hcx hpy
            have hgp : Int.tdiv (Int.tdiv (j - 1) 2 - 1) 2 < Int.tdiv (j - 1) 2 :=
              (child_of_parent (by omega)).2.2
            have hgpc : childIdx (Int.tdiv (Int.tdiv (j - 1) 2 - 1) 2) (Int.tdiv (j - 1) 2) :=
              (child_of_parent (by omega)).1
            rw [hfr2 _ (by omega) (by omega)] at hpy
            have hc' := childIdx_or hc
            have hparpair : l xp y = false :=
              hex.1 (Int.tdiv (Int.tdiv (j - 1) 2 - 1) 2) (Int.tdiv (j - 1) 2) xp y hgpc
                (by omega) (by omega) (by omega) hxp hpy
            by_cases hcj : c = j
            · rw [hcj, he2j] at hcx
              have hxv : x = xp := (Option.some.inj hcx).symm
              rw [hxv]
              exact hparpair
            · rw [hfr2 c (by omega) hcj] at hcx
              have hs : l x xp = false :=
                hex.1 (Int.tdiv (j - 1) 2) c x xp hc (by omega) hcj hcm hcx hxp
              exact hsw.negtrans hs hparpair

/-! ### Lemmas about truncation, append and out-of-bounds access -/

theorem elemAt_take {e : List E} {t : Nat} {k : Int} (hk : k < (t : Int)) :
    elemAt (e.take t) k = elemAt e k := by
  by_cases h0 : k < 0
  · rw [elemAt_neg h0, elemAt_neg h0]
  · rw [elemAt_nonneg (by omega), elemAt_nonneg (by omega), List.getElem?_take,
      if_pos (by omega)]

theorem elemAt_append_lt {e : List E} {x : E} {k : Int} (hk : k < (e.length : Int)) :
    elemAt (e ++ [x]) k = elemAt e k := by
  by_cases h0 : k < 0
  · rw [elemAt_neg h0, elemAt_neg h0]
  · rw [elemAt_nonneg (by omega), elemAt_nonneg (by omega), List.getElem?_append,
      if_pos (by omega)]

theorem elemAt_append_last (e : List E) (x : E) :
    elemAt (e ++ [x]) (e.length : Int) = some x := by
  rw [elemAt_nonneg (by omega), List.getElem?_append, if_neg (by omega)]
  simp

theorem elemAt_oob {e : List E} {i : Int} (h : (e.length : Int) ≤ i) : elemAt e i = none := by
  by_cases h0 : i < 0
  · exact elemAt_neg h0
  · rw [elemAt_nonneg (by omega)]
    exact List.getElem?_eq_none (by omega)

theorem WInv_shrink {l : E → E → Bool} {e : List E} {n n2 lo : Int}
    (h : WInv l e n lo) (hn : n2 ≤ n) : WInv l e n2 lo := by
  intro p c x y hp hc hcn hcx hpy
  exact h p c x y hp hc (by omega) hcx hpy

theorem heapInv_of_take {l : E → E → Bool} {e : List E} (hl : 0 < e.length)
    (h : WInv l e ((e.length : Int) - 1) 0) :
    heapInv { e := e.take (e.length - 1), l := l } := by
  unfold heapInv
  have hlen : (e.take (e.length - 1)).length = e.length - 1 := by
    rw [List.length_take]
    omega
  rw [hlen]
  have hcast : ((e.length - 1 : Nat) : Int) = (e.length : Int) - 1 := by omega
  rw [hcast]
  refine WInv_congr ?_ h
  intro k hk0 hkn
  exact elemAt_take (by omega)

theorem swap_none_left {e : List E} {i j : Int} (h : elemAt e i = none) :
    swap e i j = none := by
  unfold swap
  rw [h]

theorem swap_none_right {e : List E} {i j : Int} (h : elemAt e j = none) :
    swap e i j = none := by
  unfold swap
  rw [h]
  cases hi : elemAt e i <;> rfl

/-! ### Specifications of the exported operations -/

theorem Peek_empty {h : heap E} (hl : Len h ≤ 0) : Peek h = none := by
  unfold Peek el Len
  unfold Len at hl
  exact elemAt_neg (by omega)

theorem Peek_last {h : heap E} (hl : 0 < Len h) :
    ∃ x, Peek h = some x ∧ elemAt h.e ((h.e.length : Int) - 1) = some x := by
  unfold Len at hl
  obtain ⟨x, hx⟩ := elemAt_total (e := h.e) (i := (h.e.length : Int) - 1)
    (by omega) (by omega)
  exact ⟨x, hx, hx⟩

theorem pop_spec {h : heap E} (hl : 0 < h.e.length) :
    ∃ x, pop h = some (x, { h with e := h.e.take (h.e.length - 1) }) ∧
      elemAt h.e ((h.e.length : Int) - 1) = some x := by
  obtain ⟨x, hx⟩ := elemAt_total (e := h.e) (i := (h.e.length : Int) - 1)
    (by omega) (by omega)
  refine ⟨x, ?_, hx⟩
  simp only [pop, Peek, el, Len, hx]

theorem pop_empty {h : heap E} (hl : h.e.length = 0) : pop h = none := by
  simp only [pop, Peek, el, Len, elemAt_neg (show (h.e.length : Int) - 1 < 0 by omega)]

theorem Pop_empty {h : heap E} (hl : Len h ≤ 0) : Pop h = none := by
  unfold Len at hl
  simp only [Pop, Len, swap_none_left (elemAt_oob (show (h.e.length : Int) ≤ 0 by omega))]

theorem Pop_main {h : heap E} (hl : 0 < Len h) :
    ∃ x h2, Pop h = some (x, h2) ∧
      elemAt h.e 0 = some x ∧
      h2.l = h.l ∧
      h2.e.length = h.e.length - 1 ∧
      (∀ z, z ∈ h2.e → z ∈ h.e) ∧
      (SWOrd h.l → heapInv h → heapInv h2) := by
  have hlen : 0 < h.e.length := by unfold Len at hl; omega
  obtain ⟨x0, hx0⟩ := elemAt_total (e := h.e) (i := 0) (by omega) (by omega)
  obtain ⟨xl, hxl⟩ := elemAt_total (e := h.e) (i := (h.e.length : Int) - 1)
    (by omega) (by omega)
  obtain ⟨e1, hswp, hlen1, hmem1, he10, he1l, hfr1⟩ := swap_spec hx0 hxl
  obtain ⟨e2, f, hdeq, hdlen, hdmem, hdfrD, hdfrW, hdorig, hdstop, hdinv⟩ :=
    down_main (l := h.l) (n := (h.e.length : Int) - 1)
      ((h.e.length : Int) - 1 - 0).toNat e1 0 (by omega) (by omega) (by rw [hlen1]; omega)
  have hval2 : elemAt e2 ((h.e.length : Int) - 1) = some x0 := by
    rw [hdfrW ((h.e.length : Int) - 1) (by omega), he1l]
  have hlen2 : e2.length = h.e.length := by rw [hdlen, hlen1]
  have hpop : Pop h = pop { h with e := e2 } := by
    simp only [Pop, Len, hswp, hdeq]
  obtain ⟨x, hps, hxv⟩ := pop_spec (h := { h with e := e2 }) (by simpa [hlen2] using hlen)
  have hxx : x = x0 := by
    have hthis : elemAt e2 ((e2.length : Int) - 1) = some x := hxv
    rw [hlen2] at hthis
    rw [hval2] at hthis
    exact (Option.some.inj hthis).symm
  subst hxx
  refine ⟨x, { e := e2.take (e2.length - 1), l := h.l }, ?_, hx0, rfl, ?_, ?_, ?_⟩
  · rw [hpop, hps]
  · show (e2.take (e2.length - 1)).length = h.e.length - 1
    rw [List.length_take]
    omega
  · intro z hz
    have hz2 : z ∈ e2 := List.mem_of_mem_take hz
    exact hmem1 z (hdmem z hz2)
  · intro hsw hinv
    have hpre : WInv h.l e1 ((h.e.length : Int) - 1) 1 := by
      intro p c x y hp hc hcn hcx hpy
      have hc' := childIdx_or hc
      rw [hfr1 c (by omega) (by omega)] at hcx
      rw [hfr1 p (by omega) (by omega)] at hpy
      exact hinv p c x y (by omega) hc (by omega) hcx hpy
    have hinv2 : WInv h.l e2 ((h.e.length : Int) - 1) 0 := hdinv hsw hpre
    have hfin : heapInv { e := e2.take (e2.length - 1), l := h.l } := by
      refine heapInv_of_take (by omega) ?_
      rw [hlen2]
      exact hinv2
    exact hfin

theorem Push_main (h : heap E) (x : E) :
    ∃ h2, Push h x = some h2 ∧ h2.l = h.l ∧ h2.e.length = h.e.length + 1 ∧
      (∀ z, z ∈ h2.e → z ∈ h.e ∨ z = x) ∧
      (SWOrd h.l → heapInv h → heapInv h2) := by
  have hL : (((h.e ++ [x]).length : Int)) = (h.e.length : Int) + 1 := by
    simp
  obtain ⟨e2, hueq, hulen, humem, hufr, huinv⟩ :=
    up_main (l := h.l) (((h.e ++ [x]).length : Int) - 1).toNat (h.e ++ [x])
      (((h.e ++ [x]).length : Int) - 1) (le_refl _) (by omega) (by omega)
  refine ⟨{ h with e := e2 }, ?_, rfl, ?_, ?_, ?_⟩
  · simp only [Push, hueq]
  · show e2.length = h.e.length + 1
    rw [hulen]
    simp
  · intro z hz
    have hz2 := humem z hz
    rcases List.mem_append.mp hz2 with h1 | h1
    · exact Or.inl h1
    · exact Or.inr (List.mem_singleton.mp h1)
  · intro hsw hinv
    have hexc : ExceptAt h.l (h.e ++ [x]) ((h.e ++ [x]).length : Int)
        (((h.e ++ [x]).length : Int) - 1) := by
      refine ⟨?_, ?_, ?_⟩
      · intro p c x2 y2 hc hpne hcne hcm hcx hpy
        have hc' := childIdx_or hc
        rcases elemAt_some_bounds hpy with ⟨hp0, hpb⟩
        rcases elemAt_some_bounds hcx with ⟨hc0, hcb⟩
        have hcl : c < (h.e.length : Int) := by omega
        have hpl : p < (h.e.length : Int) := by omega
        rw [elemAt_append_lt hcl] at hcx
        rw [elemAt_append_lt hpl] at hpy
        exact hinv p c x2 y2 (by omega) hc hcl hcx hpy
      · intro c x2 y2 hc hcm hcx hpy
        exfalso
        have hc' := childIdx_or hc
        omega
      · intro c x2 y2 hpos hc hcm hcx hpy
        exfalso
        have hc' := childIdx_or hc
        omega
    have hfull := huinv ((h.e ++ [x]).length : Int) hsw (by omega) (by omega) hexc
    show WInv h.l e2 (e2.length : Int) 0
    rw [hulen]
    exact hfull

theorem isDesc_parent {i k : Nat} (h : isDesc i k = true) (hne : k ≠ i) :
    isDesc i ((k - 1) / 2) = true := by
  have hik := isDesc_ge h
  rw [isDesc, if_neg hne, if_neg (by omega)] at h
  exact h

theorem down_restore {l : E → E → Bool} {e e1 e2 : List E} {i n f : Int}
    (hsw : SWOrd l)
    (hagree : ∀ k : Int, 0 ≤ k → k < n → k ≠ i → elemAt e1 k = elemAt e k)
    (horig : WInv l e n 0)
    (hi0 : 0 ≤ i) (hin : i < n) (hiLen : i < (e.length : Int))
    (hdp : DownPost l e1 i n e2 f)
    (hmoved : i < f) :
    WInv l e2 n 0 := by
  obtain ⟨hdlen, hdmem, hdfrD, hdfrW, hdorig, hdstop, hdinv⟩ := hdp
  have hpre : WInv l e1 n (i + 1) := by
    intro p c x y hp hc hcn hcx hpy
    have hc' := childIdx_or hc
    rw [hagree c (by omega) hcn (by omega)] at hcx
    rw [hagree p (by omega) (by omega) (by omega)] at hpy
    exact horig p c x y (by omega) hc hcn hcx hpy
  have hmid : WInv l e2 n i := hdinv hsw hpre
  intro p c x y hp hc hcn hcx hpy
  have hc' := childIdx_or hc
  rcases Int.lt_or_le p i with hpi | hpi
  · have hpd : isDesc i.toNat p.toNat = false := isDesc_of_lt (by omega)
    have hpval : elemAt e2 p = elemAt e p := by
      rw [hdfrD p (by omega) hpd, hagree p (by omega) (by omega) (by omega)]
    by_cases hci : c = i
    · rcases hdorig with ⟨hfi, _⟩ | ⟨_, c2, hc2, hc2n, horg2⟩
      · omega
      · have hc2' := childIdx_or hc2
        rw [hci] at hcx
        rw [horg2, hagree c2 (by omega) hc2n (by omega)] at hcx
        rw [hpval] at hpy
        obtain ⟨xi, hxi⟩ := elemAt_total (e := e) (i := i) hi0 hiLen
        have h1 : l x xi = false := horig i c2 x xi (by omega) hc2 hc2n hcx hxi
        have h2 : l xi y = false := by
          refine horig p i xi y (by omega) ?_ (by omega) hxi hpy
          rw [← hci]
          exact hc
        exact hsw.negtrans h1 h2
    · have hcd : isDesc i.toNat c.toNat = false := by
        cases hdc : isDesc i.toNat c.toNat with
        | false => rfl
        | true =>
          exfalso
          have hpar : isDesc i.toNat ((c.toNat - 1) / 2) = true :=
            isDesc_parent hdc (by omega)
          have hppn : (c.toNat - 1) / 2 = p.toNat := by omega
          rw [hppn] at hpar
          have := isDesc_ge hpar
          omega
      rw [hdfrD c (by omega) hcd, hagree c (by omega) hcn (by omega)] at hcx
      rw [hpval] at hpy
      exact horig p c x y (by omega) hc hcn hcx hpy
  · exact hmid p c x y hpi hc hcn hcx hpy

theorem up_restore {l : E → E → Bool} {e e1 : List E} {i n : Int}
    (hagree : ∀ k : Int, 0 ≤ k → k < n → k ≠ i → elemAt e1 k = elemAt e k)
    (horig : WInv l e n 0)
    (hsw : SWOrd l)
    (hi0 : 0 ≤ i) (hin : i < n) (hiLen : i < (e.length : Int))
    (hnochild : ∀ c x y, childIdx i c → c < n → elemAt e1 c = some x →
      elemAt e1 i = some y → l x y = false) :
    ExceptAt l e1 n i := by
  refine ⟨?_, hnochild, ?_⟩
  · intro p c x y hc hpne hcne hcm hcx hpy
    have hc' := childIdx_or hc
    rcases elemAt_some_bounds hpy with ⟨hp0, _⟩
    rw [hagree c (by omega) hcm hcne] at hcx
    rw [hagree p (by omega) (by omega) hpne] at hpy
    exact horig p c x y (by omega) hc hcm hcx hpy
  · intro c x y hpos hc hcm hcx hpy
    have hc' := childIdx_or hc
    obtain ⟨hpc, hp0, hplt⟩ := child_of_parent (j := i) (by omega)
    rw [hagree c (by omega) hcm (by omega)] at hcx
    rw [hagree _ (by omega) (by omega) (by omega)] at hpy
    obtain ⟨xi, hxi⟩ := elemAt_total (e := e) (i := i) hi0 hiLen
    have h1 : l x xi = false := horig i c x xi (by omega) hc hcm hcx hxi
    have h2 : l xi y = false := horig _ i xi y hp0 hpc (by omega) hxi hpy
    exact hsw.negtrans h1 h2

theorem Remove_eval_last {h : heap E} {i : Int} (hlast : (h.e.length : Int) - 1 = i) :
    Remove h i = pop h := by
  simp only [Remove, Len]
  rw [if_pos hlast]

theorem Remove_eval_moved {h : heap E} {i : Int} {e1 e2 : List E} {f : Int}
    (hne : ¬((h.e.length : Int) - 1 = i))
    (hswp : swap h.e i ((h.e.length : Int) - 1) = some e1)
    (hdeq : down h.l e1 i ((h.e.length : Int) - 1) = some (e2, f)) (hmv : i < f) :
    Remove h i = pop { h with e := e2 } := by
  simp only [Remove, Len]
  rw [if_neg hne]
  simp only [hswp, hdeq]
  rw [if_pos hmv]

theorem Remove_eval_up {h : heap E} {i : Int} {e1 e2 e3 : List E} {f : Int}
    (hne : ¬((h.e.length : Int) - 1 = i))
    (hswp : swap h.e i ((h.e.length : Int) - 1) = some e1)
    (hdeq : down h.l e1 i ((h.e.length : Int) - 1) = some (e2, f)) (hmv : ¬(i < f))
    (hup : up h.l e2 i = some e3) :
    Remove h i = pop { h with e := e3 } := by
  simp only [Remove, Len]
  rw [if_neg hne]
  simp only [hswp, hdeq]
  rw [if_neg hmv]
  simp only [hup]

theorem Fix_eval_moved {h : heap E} {i : Int} {e2 : List E} {f : Int}
    (hdeq : down h.l h.e i (h.e.length : Int) = some (e2, f)) (hmv : i < f) :
    Fix h i = some { h with e := e2 } := by
  simp only [Fix, Len, hdeq]
  rw [if_pos hmv]

theorem Fix_eval_up {h : heap E} {i : Int} {e2 e3 : List E} {f : Int}
    (hdeq : down h.l h.e i (h.e.length : Int) = some (e2, f)) (hmv : ¬(i < f))
    (hup : up h.l e2 i = some e3) :
    Fix h i = some { h with e := e3 } := by
  simp only [Fix, Len, hdeq]
  rw [if_neg hmv]
  simp only [hup]

theorem Remove_main {h : heap E} {i : Int} (hi0 : 0 ≤ i) (hiL : i < Len h) :
    ∃ x h2, Remove h i = some (x, h2) ∧ elemAt h.e i = some x ∧ h2.l = h.l ∧
      h2.e.length = h.e.length - 1 ∧ (∀ z, z ∈ h2.e → z ∈ h.e) ∧
      (SWOrd h.l → heapInv h → heapInv h2) := by
  have hiL2 : i < (h.e.length : Int) := hiL
  have hlen : 0 < h.e.length := by omega
  by_cases hlast : (h.e.length : Int) - 1 = i
  · obtain ⟨x, hps, hxv⟩ := pop_spec (h := h) hlen
    refine ⟨x, { e := h.e.take (h.e.length - 1), l := h.l }, ?_, ?_, rfl, ?_, ?_, ?_⟩
    · rw [Remove_eval_last hlast]
      exact hps
    · rw [← hlast]
      exact hxv
    · show (h.e.take (h.e.length - 1)).length = h.e.length - 1
      rw [List.length_take]
      omega
    · intro z hz
      exact List.mem_of_mem_take hz
    · intro hsw hinv
      exact heapInv_of_take hlen (WInv_shrink hinv (by omega))
  · obtain ⟨xi, hxi⟩ := elemAt_total (e := h.e) (i := i) hi0 hiL2
    obtain ⟨xl, hxl⟩ := elemAt_total (e := h.e) (i := (h.e.length : Int) - 1)
      (by omega) (by omega)
    obtain ⟨e1, hswp, hlen1, hmem1, he1i, he1l, hfr1⟩ := swap_spec hxi hxl
    obtain ⟨e2, f, hdeq, hdp⟩ := down_main (l := h.l) (n := (h.e.length : Int) - 1)
      ((h.e.length : Int) - 1 - i).toNat e1 i (le_refl _) hi0 (by rw [hlen1]; omega)
    have hdp2 := hdp
    obtain ⟨hdlen, hdmem, hdfrD, hdfrW, hdorig, hdstop, hdinv⟩ := hdp2
    have hagree : ∀ k : Int, 0 ≤ k → k < (h.e.length : Int) - 1 → k ≠ i →
        elemAt e1 k = elemAt h.e k := fun k hk0 hkn hki => hfr1 k hki (by omega)
    have hval2 : elemAt e2 ((h.e.length : Int) - 1) = some xi := by
      rw [hdfrW _ (le_refl _), he1l]
    have hlen2 : e2.length = h.e.length := by rw [hdlen, hlen1]
    by_cases hmv : i < f
    · have hrw : Remove h i = pop { h with e := e2 } :=
        Remove_eval_moved hlast hswp hdeq hmv
      obtain ⟨x, hps, hxv⟩ := pop_spec (h := { h with e := e2 })
        (show 0 < e2.length by omega)
      have hxx : x = xi := by
        have hthis : elemAt e2 ((e2.length : Int) - 1) = some x := hxv
        rw [hlen2, hval2] at hthis
        exact (Option.some.inj hthis).symm
      subst hxx
      refine ⟨x, { e := e2.take (e2.length - 1), l := h.l }, ?_, hxi, rfl, ?_, ?_, ?_⟩
      · rw [hrw, hps]
      · show (e2.take (e2.length - 1)).length = h.e.length - 1
        rw [List.length_take]
        omega
      · intro z hz
        exact hmem1 z (hdmem z (List.mem_of_mem_take hz))
      · intro hsw hinv
        have hfull : WInv h.l e2 ((h.e.length : Int) - 1) 0 :=
          down_restore hsw hagree (WInv_shrink hinv (by omega)) hi0 (by omega) hiL2
            hdp hmv
        refine heapInv_of_take (by omega) ?_
        rw [hlen2]
        exact hfull
    · have hfe : f = i ∧ e2 = e1 := by
        rcases hdorig with h1 | h1
        · exact h1
        · exact absurd h1.1 hmv
      obtain ⟨e3, hueq, hulen, humem, hufr, huinv⟩ := up_main (l := h.l) i.toNat e1 i
        (le_refl _) hi0 (by rw [hlen1]; omega)
      have hrw : Remove h i = pop { h with e := e3 } := by
        refine Remove_eval_up hlast hswp hdeq hmv ?_
        rw [hfe.2]
        exact hueq
      have hlen3 : e3.length = h.e.length := by rw [hulen, hlen1]
      have hval3 : elemAt e3 ((h.e.length : Int) - 1) = some xi := by
        rw [hufr _ (by omega) (isDesc_of_lt (by omega)), he1l]
      obtain ⟨x, hps, hxv⟩ := pop_spec (h := { h with e := e3 })
        (show 0 < e3.length by omega)
      have hxx : x = xi := by
        have hthis : elemAt e3 ((e3.length : Int) - 1) = some x := hxv
        rw [hlen3, hval3] at hthis
        exact (Option.some.inj hthis).symm
      subst hxx
      refine ⟨x, { e := e3.take (e3.length - 1), l := h.l }, ?_, hxi, rfl, ?_, ?_, ?_⟩
      · rw [hrw, hps]
      · show (e3.take (e3.length - 1)).length = h.e.length - 1
        rw [List.length_take]
        omega
      · intro z hz
        exact hmem1 z (humem z (List.mem_of_mem_take hz))
      · intro hsw hinv
        have hexc : ExceptAt h.l e1 ((h.e.length : Int) - 1) i :=
          up_restore hagree (WInv_shrink hinv (by omega)) hsw hi0 (by omega) hiL2
            (fun c x2 y2 hc hcn hcx hpy => hdstop hsw hfe.1 c x2 y2 hc hcn hcx hpy)
        have hfull : WInv h.l e3 ((h.e.length : Int) - 1) 0 :=
          huinv ((h.e.length : Int) - 1) hsw (by omega) (by rw [hlen1]; omega) hexc
        refine heapInv_of_take (by omega) ?_
        rw [hlen3]
        exact hfull

theorem Fix_main {h : heap E} {i : Int} {v : E} (hsw : SWOrd h.l) (hinv : heapInv h)
    (hi0 : 0 ≤ i) (hiL : i < Len h) :
    ∃ h2, Fix { h with e := h.e.set i.toNat v } i = some h2 ∧ heapInv h2 ∧
      h2.e.length = h.e.length ∧ h2.l = h.l := by
  have hiL2 : i < (h.e.length : Int) := hiL
  have hsetlen : (h.e.set i.toNat v).length = h.e.length := by simp
  have hsl : ((h.e.set i.toNat v).length : Int) = (h.e.length : Int) := by
    rw [hsetlen]
  have hagree : ∀ k : Int, 0 ≤ k → k < ((h.e.set i.toNat v).length : Int) → k ≠ i →
      elemAt (h.e.set i.toNat v) k = elemAt h.e k := by
    intro k hk0 hkn hki
    rw [elemAt_set (by omega) k, if_neg (by omega)]
  have horig : WInv h.l h.e (((h.e.set i.toNat v).length : Int)) 0 := by
    rw [hsetlen]
    exact hinv
  obtain ⟨e2, f, hdeq, hdp⟩ := down_main (l := h.l)
    (n := ((h.e.set i.toNat v).length : Int))
    (((h.e.set i.toNat v).length : Int) - i).toNat (h.e.set i.toNat v) i
    (le_refl _) hi0 (le_refl _)
  have hdp2 := hdp
  obtain ⟨hdlen, hdmem, hdfrD, hdfrW, hdorig, hdstop, hdinv⟩ := hdp2
  by_cases hmv : i < f
  · refine ⟨{ h with e := e2 }, Fix_eval_moved hdeq hmv, ?_, ?_, rfl⟩
    · show WInv h.l e2 (e2.length : Int) 0
      have hfull : WInv h.l e2 (((h.e.set i.toNat v).length : Int)) 0 :=
        down_restore hsw hagree horig hi0 (by omega) hiL2 hdp hmv
      rw [hdlen]
      exact hfull
    · show e2.length = h.e.length
      rw [hdlen, hsetlen]
  · have hfe : f = i ∧ e2 = h.e.set i.toNat v := by
      rcases hdorig with h1 | h1
      · exact h1
      · exact absurd h1.1 hmv
    obtain ⟨e3, hueq, hulen, humem, hufr, huinv⟩ := up_main (l := h.l) i.toNat
      (h.e.set i.toNat v) i (le_refl _) hi0 (by omega)
    refine ⟨{ h with e := e3 }, ?_, ?_, ?_, rfl⟩
    · refine Fix_eval_up hdeq hmv ?_
      rw [hfe.2]
      exact hueq
    · show WInv h.l e3 (e3.length : Int) 0
      have hexc : ExceptAt h.l (h.e.set i.toNat v)
          (((h.e.set i.toNat v).length : Int)) i :=
        up_restore hagree horig hsw hi0 (by omega) hiL2
          (fun c x2 y2 hc hcn hcx hpy => hdstop hsw hfe.1 c x2 y2 hc hcn hcx hpy)
      have hfull := huinv (((h.e.set i.toNat v).length : Int)) hsw (by omega)
        (le_refl _) hexc
      rw [hulen]
      exact hfull
    · show e3.length = h.e.length
      rw [hulen, hsetlen]

/-! ### Heapify and construction -/

theorem initLoop_main {l : E → E → Bool} {n : Int} :
    ∀ (fuel : Nat) (e : List E) (i : Int), (i + 1).toNat ≤ fuel → -1 ≤ i →
      n ≤ (e.length : Int) →
      ∃ e2, initLoop l n e i = some e2 ∧ e2.length = e.length ∧
        (∀ z, z ∈ e2 → z ∈ e) ∧
        (SWOrd l → WInv l e n (i + 1) → WInv l e2 n 0) := by
  intro fuel
  induction fuel with
  | zero =>
    intro e i hf hi hlen
    have hie : i = -1 := by omega
    subst hie
    refine ⟨e, initLoop_neg (by omega), rfl, fun z hz => hz, ?_⟩
    intro _ hinv
    have h0 : (-1 : Int) + 1 = 0 := by decide
    rw [h0] at hinv
    exact hinv
  | succ fuel ih =>
    intro e i hf hi hlen
    rcases Int.lt_or_le i 0 with hineg | hipos
    · have hie : i = -1 := by omega
      subst hie
      refine ⟨e, initLoop_neg (by omega), rfl, fun z hz => hz, ?_⟩
      intro _ hinv
      have h0 : (-1 : Int) + 1 = 0 := by decide
      rw [h0] at hinv
      exact hinv
    · obtain ⟨e2, f, hdeq, hdp⟩ := down_main (l := l) (n := n) (n - i).toNat e i
        (le_refl _) hipos hlen
      obtain ⟨hdlen, hdmem, _, _, _, _, hdinv⟩ := hdp
      obtain ⟨e3, hleq, hllen, hlmem, hlinv⟩ := ih e2 (i - 1) (by omega) (by omega)
        (by rw [hdlen]; exact hlen)
      refine ⟨e3, ?_, ?_, ?_, ?_⟩
      · rw [initLoop_step hipos hdeq]
        exact hleq
      · rw [hllen, hdlen]
      · intro z hz
        exact hdmem z (hlmem z hz)
      · intro hsw hinv
        refine hlinv hsw ?_
        have hstep : WInv l e2 n i := hdinv hsw hinv
        have hi1 : i - 1 + 1 = i := by omega
        rw [hi1]
        exact hstep

theorem Init_main (h : heap E) :
    ∃ h2, Init h = some h2 ∧ h2.l = h.l ∧ h2.e.length = h.e.length ∧
      (∀ z, z ∈ h2.e → z ∈ h.e) ∧ (SWOrd h.l → heapInv h2) := by
  have htd : 0 ≤ Int.tdiv (Len h) 2 ∧ 2 * Int.tdiv (Len h) 2 + 1 ≥ Len h := by
    have hL : Len h = (h.e.length : Int) := rfl
    rw [hL, Int.tdiv_eq_ediv (by omega) (by omega)]
    omega
  obtain ⟨e2, hleq, hllen, hlmem, hlinv⟩ := initLoop_main (l := h.l) (n := Len h)
    ((Int.tdiv (Len h) 2 - 1) + 1).toNat h.e (Int.tdiv (Len h) 2 - 1) (le_refl _)
    (by omega) (le_refl _)
  refine ⟨{ h with e := e2 }, ?_, rfl, hllen, hlmem, ?_⟩
  · simp only [Init, hleq]
  · intro hsw
    have hstart : WInv h.l h.e (Len h) (Int.tdiv (Len h) 2 - 1 + 1) := by
      intro p c x y hp hc hcn hcx hpy
      exfalso
      rcases childIdx_or hc with h1 | h1 <;> omega
    have hfull := hlinv hsw hstart
    show WInv h.l e2 (e2.length : Int) 0
    have hL2 : (e2.length : Int) = Len h := by
      show (e2.length : Int) = (h.e.length : Int)
      rw [hllen]
    rw [hL2]
    exact hfull

theorem New_main (e : List E) (l : E → E → Bool) :
    ∃ h2, New e l = some h2 ∧ h2.l = l ∧ h2.e.length = e.length ∧
      (∀ z, z ∈ h2.e → z ∈ e) ∧ (SWOrd l → heapInv h2) := by
  obtain ⟨h2, heq, hl, hlen, hmem, hinv⟩ := Init_main { e := e, l := l }
  exact ⟨h2, heq, hl, hlen, hmem, fun hsw2 => hinv hsw2⟩

/-! ### The root is minimal -/

theorem root_min_aux {l : E → E → Bool} {e : List E} (hsw : SWOrd l)
    (hinv : WInv l e (e.length : Int) 0) {r : E} (hr : elemAt e 0 = some r) :
    ∀ (k : Nat) (x : E), e[k]? = some x → l x r = false := by
  intro k
  induction k using Nat.strong_induction_on with
  | _ k ih =>
    intro x hx
    rcases Nat.eq_zero_or_pos k with hk0 | hkpos
    · subst hk0
      have hx0 : elemAt e 0 = some x := by
        rw [elemAt_nonneg (by omega)]
        exact hx
      rw [hr] at hx0
      have hxr := Option.some.inj hx0
      rw [← hxr]
      exact hsw.irrefl r
    · have hkb : k < e.length := by
        rcases List.getElem?_eq_some.mp hx with ⟨hb, _⟩
        exact hb
      obtain ⟨y, hy⟩ := elemAt_total (e := e) (i := (((k - 1) / 2 : Nat) : Int))
        (by omega) (by omega)
      have hpair : l x y = false := by
        refine hinv (((k - 1) / 2 : Nat) : Int) (k : Int) x y (by omega) ?_ (by omega)
          ?_ hy
        · unfold childIdx
          omega
        · rw [elemAt_nonneg (by omega)]
          simpa using hx
      have hyr : l y r = false := by
        refine ih ((k - 1) / 2) (by omega) y ?_
        rw [elemAt_nonneg (by omega)] at hy
        simpa using hy
      exact hsw.negtrans hpair hyr

theorem root_min {h : heap E} (hsw : SWOrd h.l) (hinv : heapInv h) {r : E}
    (hr : elemAt h.e 0 = some r) : ∀ x, x ∈ h.e → h.l x r = false := by
  intro x hx
  obtain ⟨k, hk⟩ := List.mem_iff_getElem?.mp hx
  exact root_min_aux hsw hinv hr k x hk

/-! ### Degenerate runs of the loops and out-of-range behavior -/

theorem lessAt_none_left {l : E → E → Bool} {e : List E} {i j : Int}
    (h : elemAt e i = none) : lessAt l e i j = none := by
  unfold lessAt
  rw [h]

theorem up_none {l : E → E → Bool} {e : List E} {j : Int}
    (hij : ¬(Int.tdiv (j - 1) 2 = j))
    (hlt : lessAt l e j (Int.tdiv (j - 1) 2) = none) : up l e j = none := by
  rw [up, dif_neg hij, hlt]

theorem tdiv2_ne_self {i : Int} (h : i ≤ -2) : ¬(Int.tdiv (i - 1) 2 = i) := by
  intro hEq
  have hneg : i - 1 = -(1 - i) := by omega
  rw [hneg, Int.neg_tdiv, Int.tdiv_eq_ediv (by omega) (by omega)] at hEq
  omega

theorem Fix_eval_none_up {h : heap E} {i : Int} {e2 : List E} {f : Int}
    (hdeq : down h.l h.e i (h.e.length : Int) = some (e2, f)) (hmv : ¬(i < f))
    (hup : up h.l e2 i = none) : Fix h i = none := by
  simp only [Fix, Len, hdeq]
  rw [if_neg hmv]
  simp only [hup]

theorem swap_self {e : List E} {i : Int} {a : E} (ha : elemAt e i = some a) :
    swap e i i = some e := by
  obtain ⟨e2, heq, hlen, _, hei, _, hfr⟩ := swap_spec ha ha
  have hext : e2 = e := by
    refine List.ext_getElem? ?_
    intro n
    have hn : elemAt e2 (n : Int) = elemAt e (n : Int) := by
      by_cases hni : (n : Int) = i
      · rw [hni, hei, ha]
      · exact hfr _ hni hni
    rw [elemAt_nonneg (by omega), elemAt_nonneg (by omega)] at hn
    simpa using hn
  rw [hext] at heq
  exact heq

theorem Remove_oob {h : heap E} {i : Int} (hi : ¬(0 ≤ i ∧ i < Len h)) :
    Remove h i = none := by
  have hL : Len h = (h.e.length : Int) := rfl
  by_cases hlast : (h.e.length : Int) - 1 = i
  · have hL0 : h.e.length = 0 := by omega
    rw [Remove_eval_last hlast]
    exact pop_empty hL0
  · have hnone : elemAt h.e i = none := by
      rcases Int.lt_or_le i 0 with h1 | h1
      · exact elemAt_neg h1
      · exact elemAt_oob (by omega)
    simp only [Remove, Len]
    rw [if_neg hlast, swap_none_left hnone]

theorem Fix_preserve {h : heap E} {i : Int} {h2 : heap E} (hsw : SWOrd h.l)
    (hinv : heapInv h) (hf : Fix h i = some h2) : heapInv h2 := by
  by_cases hir : 0 ≤ i ∧ i < Len h
  · obtain ⟨xi, hxi⟩ := elemAt_total (e := h.e) (i := i) hir.1 hir.2
    have hib : i.toNat < h.e.length := by
      rcases elemAt_some_bounds hxi with ⟨h1, h2⟩
      omega
    have hset : h.e.set i.toNat xi = h.e := by
      refine List.ext_getElem? ?_
      intro n
      rw [List.getElem?_set]
      by_cases hn : i.toNat = n
      · rw [if_pos hn, if_pos (by omega)]
        rw [← hn]
        rw [elemAt_nonneg hir.1] at hxi
        exact hxi.symm
      · rw [if_neg hn]
    obtain ⟨h3, hf3, hinv3, _, _⟩ := Fix_main (v := xi) hsw hinv hir.1 hir.2
    rw [hset] at hf3
    have hf3b : Fix h i = some h3 := hf3
    rw [hf] at hf3b
    rw [Option.some.inj hf3b]
    exact hinv3
  · have hL : Len h = (h.e.length : Int) := rfl
    rcases Int.lt_or_le i 0 with hineg | hige
    · have hdeq : down h.l h.e i (h.e.length : Int) = some (h.e, i) :=
        down_stop (Or.inr (by omega))
      by_cases hione : i = -1
      · subst hione
        have hup : up h.l h.e (-1) = some h.e := up_stop1 (by decide)
        have hfx : Fix h (-1) = some { h with e := h.e } := Fix_eval_up hdeq (by omega) hup
        rw [hf] at hfx
        rw [Option.some.inj hfx]
        exact hinv
      · exfalso
        have hij : ¬(Int.tdiv (i - 1) 2 = i) := tdiv2_ne_self (by omega)
        have hlt : lessAt h.l h.e i (Int.tdiv (i - 1) 2) = none :=
          lessAt_none_left (elemAt_neg hineg)
        have hup : up h.l h.e i = none := up_none hij hlt
        have hnone : Fix h i = none := Fix_eval_none_up hdeq (by omega) hup
        rw [hf] at hnone
        exact Option.noConfusion hnone
    · have hiL : (h.e.length : Int) ≤ i := by omega
      have hdeq : down h.l h.e i (h.e.length : Int) = some (h.e, i) :=
        down_stop (Or.inl (by omega))
      by_cases hizero : i = 0
      · subst hizero
        have hup : up h.l h.e 0 = some h.e := up_stop1 (by decide)
        have hfx : Fix h 0 = some { h with e := h.e } := Fix_eval_up hdeq (by omega) hup
        rw [hf] at hfx
        rw [Option.some.inj hfx]
        exact hinv
      · exfalso
        have hij : ¬(Int.tdiv (i - 1) 2 = i) := by
          rw [Int.tdiv_eq_ediv (by omega) (by omega)]
          omega
        have hlt : lessAt h.l h.e i (Int.tdiv (i - 1) 2) = none :=
          lessAt_none_left (elemAt_oob hiL)
        have hup : up h.l h.e i = none := up_none hij hlt
        have hnone : Fix h i = none := Fix_eval_none_up hdeq (by omega) hup
        rw [hf] at hnone
        exact Option.noConfusion hnone

theorem Pop_eq_Remove_zero {h : heap E} (hl : 0 < Len h) : Pop h = Remove h 0 := by
  have hlen : 0 < h.e.length := by
    have hL : Len h = (h.e.length : Int) := rfl
    omega
  obtain ⟨x0, hx0⟩ := elemAt_total (e := h.e) (i := 0) (by omega) (by omega)
  by_cases h1 : (h.e.length : Int) - 1 = 0
  · have hsw0 : swap h.e 0 ((h.e.length : Int) - 1) = some h.e := by
      rw [h1]
      exact swap_self hx0
    have hdn0 : down h.l h.e 0 ((h.e.length : Int) - 1) = some (h.e, 0) := by
      rw [h1]
      exact down_stop (by omega)
    rw [Remove_eval_last h1]
    simp only [Pop, Len, hsw0, hdn0]
  · obtain ⟨xl, hxl⟩ := elemAt_total (e := h.e) (i := (h.e.length : Int) - 1)
      (by omega) (by omega)
    obtain ⟨e1, hswp, hlen1, _, _, _, _⟩ := swap_spec hx0 hxl
    obtain ⟨e2, f, hdeq, hdp⟩ := down_main (l := h.l) (n := (h.e.length : Int) - 1)
      ((h.e.length : Int) - 1).toNat e1 0 (by omega) (by omega) (by rw [hlen1]; omega)
    obtain ⟨_, _, _, _, hdorig, _, _⟩ := hdp
    have hpopeq : Pop h = pop { h with e := e2 } := by
      simp only [Pop, Len, hswp, hdeq]
    by_cases hmv : 0 < f
    · rw [hpopeq, Remove_eval_moved h1 hswp hdeq hmv]
    · have hfe : f = 0 ∧ e2 = e1 := by
        rcases hdorig with h2 | h2
        · exact h2
        · exact absurd h2.1 hmv
      have hup : up h.l e2 0 = some e2 := up_stop1 (by decide)
      rw [hpopeq, Remove_eval_up h1 hswp hdeq hmv hup]

/-! ### Iterated popping and the drain loop -/

theorem popN_basic : ∀ (n : Nat) (h : heap E), h.e.length = n →
    ∃ out h2, popN n h = some (out, h2) ∧ h2.e.length = 0 ∧ h2.l = h.l ∧
      out.length = n ∧ (∀ z, z ∈ out → z ∈ h.e) := by
  intro n
  induction n with
  | zero =>
    intro h hlen
    exact ⟨[], h, rfl, hlen, rfl, rfl, by simp⟩
  | succ n ih =>
    intro h hlen
    have hL : Len h = (h.e.length : Int) := rfl
    obtain ⟨x, h1, hpeq, hx0, h1l, h1len, h1mem, _⟩ := Pop_main (h := h) (by omega)
    obtain ⟨out, h3, hrec, h3len, h3l, houtlen, houtmem⟩ := ih h1 (by omega)
    refine ⟨x :: out, h3, ?_, h3len, h3l.trans h1l, by simp [houtlen], ?_⟩
    · simp only [popN, hpeq, hrec]
    · intro z hz
      rcases List.mem_cons.mp hz with hz1 | hz1
      · rw [hz1]
        exact elemAt_mem hx0
      · exact h1mem z (houtmem z hz1)

theorem popN_sorted {l : E → E → Bool} (hsw : SWOrd l) :
    ∀ (n : Nat) (h : heap E), h.l = l → h.e.length = n → heapInv h →
      ∃ out h2, popN n h = some (out, h2) ∧ h2.e.length = 0 ∧ h2.l = l ∧
        out.length = n ∧ (∀ z, z ∈ out → z ∈ h.e) ∧
        List.Pairwise (fun a b => l b a = false) out := by
  intro n
  induction n with
  | zero =>
    intro h hL hlen hinv
    exact ⟨[], h, rfl, hlen, hL, rfl, by simp, List.Pairwise.nil⟩
  | succ n ih =>
    intro h hL hlen hinv
    have hLL : Len h = (h.e.length : Int) := rfl
    obtain ⟨x, h2, hpeq, hx0, h2l, h2len, h2mem, h2inv⟩ := Pop_main (h := h) (by omega)
    obtain ⟨out, h3, hrec, h3len, h3l, houtlen, houtmem, hsort⟩ :=
      ih h2 (h2l.trans hL) (by omega) (h2inv (by rw [hL]; exact hsw) hinv)
    refine ⟨x :: out, h3, ?_, h3len, h3l, by simp [houtlen], ?_, ?_⟩
    · simp only [popN, hpeq, hrec]
    · intro z hz
      rcases List.mem_cons.mp hz with hz1 | hz1
      · rw [hz1]
        exact elemAt_mem hx0
      · exact h2mem z (houtmem z hz1)
    · refine List.pairwise_cons.mpr ⟨?_, hsort⟩
      intro y hy
      have hy1 : y ∈ h.e := h2mem y (houtmem y hy)
      have hmin := root_min (by rw [hL]; exact hsw) hinv hx0 y hy1
      rw [hL] at hmin
      exact hmin

theorem Queue_yes_drain : ∀ (n : Nat) (h : heap E) (acc : List E), h.e.length = n →
    ∀ out h2, popN n h = some (out, h2) →
    Queue h yesYield acc = some (h2, acc ++ out) := by
  intro n
  induction n with
  | zero =>
    intro h acc hlen out h2 hpn
    simp only [popN] at hpn
    have hinj := Option.some.inj hpn
    have ho : ([] : List E) = out := congrArg Prod.fst hinj
    have hh : h = h2 := congrArg Prod.snd hinj
    have hq0 : ¬(0 : Int) < Len h := by
      have hL : Len h = (h.e.length : Int) := rfl
      omega
    rw [Queue_stop hq0, ← hh, ← ho]
    simp
  | succ n ih =>
    intro h acc hlen out h2 hpn
    have hL : Len h = (h.e.length : Int) := rfl
    obtain ⟨x, h1, hpeq, _, _, h1len, _, _⟩ := Pop_main (h := h) (by omega)
    simp only [popN, hpeq] at hpn
    rcases hrec : popN n h1 with _ | ⟨out1, h3⟩
    · simp only [hrec] at hpn
      exact Option.noConfusion hpn
    · simp only [hrec] at hpn
      have hinj := Option.some.inj hpn
      have ho : x :: out1 = out := congrArg Prod.fst hinj
      have hh : h3 = h2 := congrArg Prod.snd hinj
      rw [Queue_step (by omega) hpeq (show yesYield acc x = (true, acc ++ [x]) from rfl)]
      rw [ih h1 (acc ++ [x]) (by omega) out1 h3 hrec, hh, ← ho]
      simp

theorem Queue_count : ∀ (d : Nat) (h : heap E) (acc : List E) (k : Nat),
    1 ≤ d → acc.length + d = k → (d : Int) ≤ Len h →
    ∀ out h2, popN d h = some (out, h2) →
    Queue h (countYield k) acc = some (h2, acc ++ out) := by
  intro d
  induction d with
  | zero =>
    intro h acc k h1 _ _ out h2 _
    exact absurd h1 (by omega)
  | succ d ih =>
    intro h acc k h1 hk hdL out h2 hpn
    have hL : Len h = (h.e.length : Int) := rfl
    obtain ⟨x, hh1, hpeq, _, _, hh1len, _, _⟩ := Pop_main (h := h) (by omega)
    simp only [popN, hpeq] at hpn
    rcases hrec : popN d hh1 with _ | ⟨out1, h3⟩
    · simp only [hrec] at hpn
      exact Option.noConfusion hpn
    · simp only [hrec] at hpn
      have hinj := Option.some.inj hpn
      have ho : x :: out1 = out := congrArg Prod.fst hinj
      have hhh : h3 = h2 := congrArg Prod.snd hinj
      by_cases hd0 : d = 0
      · subst hd0
        simp only [popN] at hrec
        have hinj2 := Option.some.inj hrec
        have ho1 : ([] : List E) = out1 := congrArg Prod.fst hinj2
        have hh31 : hh1 = h3 := congrArg Prod.snd hinj2
        have hy : countYield k acc x = (false, acc ++ [x]) := by
          unfold countYield
          have hnk : ¬(acc.length + 1 < k) := by omega
          simp [hnk]
        rw [Queue_break (by omega) hpeq hy, ← hhh, ← hh31, ← ho, ← ho1]
      · have hy : countYield k acc x = (true, acc ++ [x]) := by
          unfold countYield
          have hyk : acc.length + 1 < k := by omega
          simp [hyk]
        rw [Queue_step (by omega) hpeq hy]
        have hLL1 : Len hh1 = (hh1.e.length : Int) := rfl
        have hstep := ih hh1 (acc ++ [x]) k (by omega)
          (by simp only [List.length_append, List.length_singleton]; omega)
          (by omega) out1 h3 hrec
        rw [hstep, hhh, ← ho]
        simp

/-! ### The executable invariant check is sound -/

theorem heapInvB_correct {l : E → E → Bool} {e : List E} (hb : heapInvB l e = true) :
    heapInv { e := e, l := l } := by
  intro p c x y hp hc hcn hcx hpy
  rcases elemAt_some_bounds hpy with ⟨hp0, hpb⟩
  rcases elemAt_some_bounds hcx with ⟨hc0, hcb⟩
  have hpb2 : p < (e.length : Int) := hpb
  have hcb2 : c < (e.length : Int) := hcb
  have hpair := List.all_eq_true.mp hb p.toNat (List.mem_range.mpr (by omega))
  unfold pairOkB at hpair
  rw [Bool.and_eq_true] at hpair
  obtain ⟨h1, h2⟩ := hpair
  rw [elemAt_nonneg hc0] at hcx
  rw [elemAt_nonneg hp0] at hpy
  have hcx2 : e[c.toNat]? = some x := hcx
  have hpy2 : e[p.toNat]? = some y := hpy
  rcases childIdx_or hc with hcc | hcc
  · have hci : c.toNat = 2 * p.toNat + 1 := by omega
    rw [hci] at hcx2
    rw [hcx2, hpy2] at h1
    simpa using h1
  · have hci : c.toNat = 2 * p.toNat + 2 := by omega
    rw [hci] at hcx2
    rw [hcx2, hpy2] at h2
    simpa using h2

theorem popN_len : ∀ (k : Nat) (h : heap E), k ≤ h.e.length →
    ∃ out h2, popN k h = some (out, h2) ∧ out.length = k ∧
      h2.e.length = h.e.length - k := by
  intro k
  induction k with
  | zero =>
    intro h hk
    exact ⟨[], h, rfl, rfl, by omega⟩
  | succ k ih =>
    intro h hk
    have hL : Len h = (h.e.length : Int) := rfl
    obtain ⟨x, h1, hpeq, _, _, h1len, _, _⟩ := Pop_main (h := h) (by omega)
    obtain ⟨out, h3, hrec, holen, h3len⟩ := ih h1 (by omega)
    exact ⟨x :: out, h3, by simp only [popN, hpeq, hrec], by simp [holen], by omega⟩

theorem Init_eval {h : heap E} {e2 : List E}
    (hl : initLoop h.l (Len h) h.e (Int.tdiv (Len h) 2 - 1) = some e2) :
    Init h = some { h with e := e2 } := by
  simp only [Init, hl]

theorem boolLess_SWOrd : SWOrd boolLess := by
  constructor
  · intro a b hab
    cases a <;> cases b <;> simp_all [boolLess]
  · intro a b c h1 h2
    cases a <;> cases b <;> cases c <;> simp_all [boolLess]

theorem natLess_SWOrd : SWOrd natLess := by
  constructor
  · intro a b hab
    simp only [natLess, decide_eq_true_eq] at hab
    simp only [natLess, decide_eq_false_iff_not]
    omega
  · intro a b c h1 h2
    simp only [natLess, decide_eq_false_iff_not] at h1 h2
    simp only [natLess, decide_eq_false_iff_not]
    omega

/-! ### The claims -/

/-- C1: the spec says `Peek` returns the minimum element (the element `Pop`
would return) of a non-empty heap.  The code returns `h.el(h.Len() - 1)`, the
LAST element of the backing slice, not the root: on the valid two-element heap
built by `New([1, 2], <)`, `Peek` returns `2` while `Pop` returns `1`.  This
theorem exhibits that concrete run, refuting the claim. -/
theorem C1_peek_returns_last_not_min :
    New [1, 2] natLess = some { e := [1, 2], l := natLess } ∧
    0 < Len ({ e := [1, 2], l := natLess } : heap Nat) ∧
    Peek ({ e := [1, 2], l := natLess } : heap Nat) = some 2 ∧
    (Pop ({ e := [1, 2], l := natLess } : heap Nat)).map Prod.fst = some 1 ∧
    Peek ({ e := [1, 2], l := natLess } : heap Nat) ≠
      (Pop ({ e := [1, 2], l := natLess } : heap Nat)).map Prod.fst := by
  have hdn0 : down natLess [1, 2] 0 2 = some ([1, 2], 0) :=
    down_noswap (j := 1) (by decide) (by decide) (by decide)
  have hinit : initLoop natLess (Len ({ e := [1, 2], l := natLess } : heap Nat))
      [1, 2] (Int.tdiv (Len ({ e := [1, 2], l := natLess } : heap Nat)) 2 - 1) =
      some [1, 2] := by
    show initLoop natLess 2 [1, 2] 0 = some [1, 2]
    rw [initLoop_step (by decide) hdn0]
    exact initLoop_neg (by decide)
  have hNew : New [1, 2] natLess = some { e := [1, 2], l := natLess } := by
    show Init { e := [1, 2], l := natLess } = some { e := [1, 2], l := natLess }
    exact Init_eval hinit
  obtain ⟨x, h2, hpeq, hx0, _, _, _, _⟩ :=
    Pop_main (h := ({ e := [1, 2], l := natLess } : heap Nat)) (by decide)
  have hx : x = 1 := by
    have h01 : elemAt ([1, 2] : List Nat) 0 = some 1 := by decide
    have hx0b : elemAt ([1, 2] : List Nat) 0 = some x := hx0
    rw [h01] at hx0b
    exact (Option.some.inj hx0b).symm
  rw [hx] at hpeq
  have hPop : (Pop ({ e := [1, 2], l := natLess } : heap Nat)).map Prod.fst = some 1 := by
    rw [hpeq]
    rfl
  refine ⟨hNew, by decide, by decide, hPop, ?_⟩
  rw [hPop]
  decide

/-- C2: the spec says the `Concurrent` wrapper serializes every forwarded call
behind its mutex.  In the source, `conHeap` declares NO methods of its own:
every operation is the promoted method of the embedded `Heap`, and the mutex
field is never locked or unlocked anywhere.  The faithful model therefore has
no lock state at all: each interface operation on a wrapped value is literally
the operation on the wrapped inner value, so no serialization step exists to
be proven.  This theorem records that pure forwarding. -/
theorem C2_conHeap_forwards_without_locking {E S : Type} (hi : HeapI E) :
    LenI (HeapI.con hi) = LenI hi ∧
    PeekI (HeapI.con hi) = PeekI hi ∧
    (∀ x, PushI (HeapI.con hi) x = (PushI hi x).map HeapI.con) ∧
    PopI (HeapI.con hi) = (PopI hi).map (fun p => (p.1, HeapI.con p.2)) ∧
    (∀ i, RemoveI (HeapI.con hi) i = (RemoveI hi i).map (fun p => (p.1, HeapI.con p.2))) ∧
    (∀ i, FixI (HeapI.con hi) i = (FixI hi i).map HeapI.con) ∧
    (∀ (yield : S → E → Bool × S) (s : S),
      QueueI yield (HeapI.con hi) s = (QueueI yield hi s).map (fun p => (HeapI.con p.1, p.2))) :=
  ⟨rfl, rfl, fun _ => rfl, rfl, fun _ => rfl, fun _ => rfl, fun _ _ => rfl⟩

/-- C3: under a strict-weak-ordering comparator, `New` establishes the binary
min-heap invariant, and `Push`, `Pop`, `Remove` and `Fix` preserve it on every
heap that satisfies it. -/
theorem C3_invariant_established_and_preserved {E : Type} (l : E → E → Bool)
    (hsw : SWOrd l) :
    (∀ e : List E, ∃ h, New e l = some h ∧ heapInv h) ∧
    (∀ h : heap E, h.l = l → heapInv h →
      (∀ x, ∃ h2, Push h x = some h2 ∧ heapInv h2) ∧
      (∀ x h2, Pop h = some (x, h2) → heapInv h2) ∧
      (∀ i x h2, Remove h i = some (x, h2) → heapInv h2) ∧
      (∀ i h2, Fix h i = some h2 → heapInv h2)) := by
  constructor
  · intro e
    obtain ⟨h2, heq, _, _, _, hinv⟩ := New_main e l
    exact ⟨h2, heq, hinv hsw⟩
  · intro h hl hinv
    refine ⟨?_, ?_, ?_, ?_⟩
    · intro x
      obtain ⟨h2, heq, _, _, _, hi2⟩ := Push_main h x
      exact ⟨h2, heq, hi2 (by rw [hl]; exact hsw) hinv⟩
    · intro x h2 hp
      by_cases hL : 0 < Len h
      · obtain ⟨x2, h3, hpeq, _, _, _, _, hi2⟩ := Pop_main hL
        rw [hp] at hpeq
        have hh : h2 = h3 := congrArg Prod.snd (Option.some.inj hpeq)
        rw [hh]
        exact hi2 (by rw [hl]; exact hsw) hinv
      · rw [Pop_empty (by omega)] at hp
        exact Option.noConfusion hp
    · intro i x h2 hr
      by_cases hir : 0 ≤ i ∧ i < Len h
      · obtain ⟨x2, h3, hreq, _, _, _, _, hi2⟩ := Remove_main hir.1 hir.2
        rw [hr] at hreq
        have hh : h2 = h3 := congrArg Prod.snd (Option.some.inj hreq)
        rw [hh]
        exact hi2 (by rw [hl]; exact hsw) hinv
      · rw [Remove_oob hir] at hr
        exact Option.noConfusion hr
    · intro i h2 hfx
      exact Fix_preserve (by rw [hl]; exact hsw) hinv hfx

/-- C3 witness: the Bool comparator is a strict weak ordering, and building a
heap from a concrete slice yields one satisfying the invariant. -/
theorem C3_witness :
    SWOrd boolLess ∧
    (∃ h, New [true, false] boolLess = some h ∧ heapInv h) :=
  ⟨boolLess_SWOrd,
    (C3_invariant_established_and_preserved boolLess boolLess_SWOrd).1 [true, false]⟩

/-- C4: heap-sort.  Building a heap over any slice with a strict-weak-ordering
comparator and popping `n = length` times yields a sequence that is
non-decreasing per the comparator (no later element is less than an earlier
one), of length `n`, and leaves the heap with `Len = 0`. -/
theorem C4_heapsort {E : Type} (l : E → E → Bool) (hsw : SWOrd l) (e : List E) :
    ∃ h out h2, New e l = some h ∧ popN e.length h = some (out, h2) ∧
      List.Pairwise (fun a b => l b a = false) out ∧
      out.length = e.length ∧ Len h2 = 0 := by
  obtain ⟨h, heq, hl, hlen, _, hinv⟩ := New_main e l
  obtain ⟨out, h2, hpn, h2len, _, houtlen, _, hsort⟩ :=
    popN_sorted hsw h.e.length h hl rfl (hinv hsw)
  rw [hlen] at hpn houtlen
  refine ⟨h, out, h2, heq, hpn, hsort, houtlen, ?_⟩
  show ((h2.e.length : Int)) = 0
  rw [h2len]
  rfl

/-- C4 witness: heap-sort at a concrete slice and comparator. -/
theorem C4_witness :
    SWOrd boolLess ∧
    (∃ h out h2, New [true, false, true] boolLess = some h ∧
      popN ([true, false, true] : List Bool).length h = some (out, h2) ∧
      List.Pairwise (fun a b => boolLess b a = false) out ∧
      out.length = ([true, false, true] : List Bool).length ∧ Len h2 = 0) :=
  ⟨boolLess_SWOrd, C4_heapsort boolLess boolLess_SWOrd [true, false, true]⟩

/-- C5: on every non-empty heap, `Pop` returns the same element and the same
resulting heap state as `Remove 0`. -/
theorem C5_pop_equals_remove_zero {E : Type} (h : heap E) (hl : 0 < Len h) :
    Pop h = Remove h 0 :=
  Pop_eq_Remove_zero hl

/-- C5 witness: `Pop` and `Remove 0` agree on a concrete non-empty heap. -/
theorem C5_witness :
    0 < Len ({ e := [5, 7], l := natLess } : heap Nat) ∧
    Pop ({ e := [5, 7], l := natLess } : heap Nat) =
      Remove ({ e := [5, 7], l := natLess } : heap Nat) 0 :=
  ⟨by decide, C5_pop_equals_remove_zero ({ e := [5, 7], l := natLess } : heap Nat) (by decide)⟩

/-- C6: on a heap satisfying the invariant under a strict-weak-ordering
comparator, overwriting the element at a valid index `i` with an arbitrary
value and calling `Fix i` succeeds, restores the full heap invariant, and
leaves `Len` unchanged. -/
theorem C6_fix_restores_invariant {E : Type} (h : heap E) (i : Int) (v : E)
    (hsw : SWOrd h.l) (hinv : heapInv h) (hi0 : 0 ≤ i) (hiL : i < Len h) :
    ∃ h2, Fix { h with e := h.e.set i.toNat v } i = some h2 ∧ heapInv h2 ∧
      Len h2 = Len h := by
  obtain ⟨h2, heq, hinv2, hlen2, _⟩ := Fix_main hsw hinv hi0 hiL
  refine ⟨h2, heq, hinv2, ?_⟩
  show ((h2.e.length : Int)) = ((h.e.length : Int))
  rw [hlen2]

/-- C6 witness: mutating index 0 of a concrete valid heap and fixing it. -/
theorem C6_witness :
    ∃ h2, Fix { ({ e := [false, true], l := boolLess } : heap Bool) with
        e := (({ e := [false, true], l := boolLess } : heap Bool)).e.set (0 : Int).toNat true }
        0 = some h2 ∧ heapInv h2 ∧
      Len h2 = Len ({ e := [false, true], l := boolLess } : heap Bool) :=
  C6_fix_restores_invariant ({ e := [false, true], l := boolLess } : heap Bool) 0 true
    boolLess_SWOrd (heapInvB_correct (by decide)) (by decide) (by decide)

/-- C7: the `Queue` drain.  With the always-continue consumer the loop performs
exactly one `Pop` per step until the heap is empty, yielding precisely the
popped sequence and leaving `Len = 0`; with a consumer that stops after `k`
steps, exactly `k` elements are popped and the heap retains the remaining
`n - k` elements; draining always terminates; and on a valid heap each yielded
element is a current minimum, so the yielded sequence is non-decreasing. -/
theorem C7_queue_drain {E : Type} (h : heap E) :
    (∀ out h2, popN h.e.length h = some (out, h2) →
      Queue h yesYield [] = some (h2, out) ∧ Len h2 = 0) ∧
    (∀ k : Nat, 1 ≤ k → (k : Int) ≤ Len h →
      ∀ out h2, popN k h = some (out, h2) →
        Queue h (countYield k) [] = some (h2, out) ∧ out.length = k ∧
        h2.e.length = h.e.length - k) ∧
    (∃ out h2, popN h.e.length h = some (out, h2)) ∧
    (SWOrd h.l → heapInv h → ∀ out h2, popN h.e.length h = some (out, h2) →
      List.Pairwise (fun a b => h.l b a = false) out) := by
  refine ⟨?_, ?_, ?_, ?_⟩
  · intro out h2 hpn
    constructor
    · have hq := Queue_yes_drain h.e.length h [] rfl out h2 hpn
      simpa using hq
    · obtain ⟨out2, h3, hpn2, h3len, _, _, _⟩ := popN_basic h.e.length h rfl
      rw [hpn] at hpn2
      have hh : h2 = h3 := congrArg Prod.snd (Option.some.inj hpn2)
      show ((h2.e.length : Int)) = 0
      rw [hh, h3len]
      rfl
  · intro k hk1 hkL out h2 hpn
    have hL : Len h = (h.e.length : Int) := rfl
    obtain ⟨out2, h3, hpn2, holen, h3len⟩ := popN_len k h (by omega)
    rw [hpn] at hpn2
    have hinj := Option.some.inj hpn2
    have ho : out = out2 := congrArg Prod.fst hinj
    have hh : h2 = h3 := congrArg Prod.snd hinj
    refine ⟨?_, ?_, ?_⟩
    · have hq := Queue_count k h [] k hk1 (by simp) hkL out h2 hpn
      simpa using hq
    · rw [ho]
      exact holen
    · rw [hh]
      exact h3len
  · obtain ⟨out, h2, hpn, _, _, _, _⟩ := popN_basic h.e.length h rfl
    exact ⟨out, h2, hpn⟩
  · intro hsw hinv out h2 hpn
    obtain ⟨out2, h3, hpn2, _, _, _, _, hsort⟩ := popN_sorted hsw h.e.length h rfl rfl hinv
    rw [hpn] at hpn2
    have ho : out = out2 := congrArg Prod.fst (Option.some.inj hpn2)
    rw [ho]
    exact hsort

/-- C7 witness: draining a concrete two-element heap with the always-continue
consumer empties it. -/
theorem C7_witness :
    ∃ out h2,
      popN (({ e := [false, true], l := boolLess } : heap Bool)).e.length
        ({ e := [false, true], l := boolLess } : heap Bool) = some (out, h2) ∧
      Queue ({ e := [false, true], l := boolLess } : heap Bool) yesYield []
        = some (h2, out) ∧
      Len h2 = 0 := by
  obtain ⟨out, h2, hpn⟩ :=
    (C7_queue_drain ({ e := [false, true], l := boolLess } : heap Bool)).2.2.1
  obtain ⟨hq, hlen⟩ :=
    (C7_queue_drain ({ e := [false, true], l := boolLess } : heap Bool)).1 out h2 hpn
  exact ⟨out, h2, hpn, hq, hlen⟩

/-- C8: fault behavior.  `Pop`, `Peek` and `Remove` on an empty heap, and
`Remove` at any index outside `0 ≤ i < Len`, fault (the model's `none`, the
image of the Go out-of-bounds panic) rather than returning a value; under the
preconditions `0 < Len` (for `Pop`/`Peek`) and `0 ≤ i < Len` (for `Remove`)
they do not fault. -/
theorem C8_faults_and_preconditions {E : Type} (h : heap E) (i : Int) :
    (Len h = 0 → Pop h = none ∧ Peek h = none ∧ Remove h i = none) ∧
    (¬(0 ≤ i ∧ i < Len h) → Remove h i = none) ∧
    (0 < Len h → (Pop h).isSome = true ∧ (Peek h).isSome = true) ∧
    (0 ≤ i → i < Len h → (Remove h i).isSome = true) := by
  refine ⟨?_, ?_, ?_, ?_⟩
  · intro h0
    exact ⟨Pop_empty (by omega), Peek_empty (by omega), Remove_oob (by omega)⟩
  · intro hir
    exact Remove_oob hir
  · intro hL
    obtain ⟨x, h2, hpeq, _, _, _, _, _⟩ := Pop_main hL
    obtain ⟨y, hpk, _⟩ := Peek_last hL
    constructor
    · rw [hpeq]
      rfl
    · rw [hpk]
      rfl
  · intro hi0 hiL
    obtain ⟨x, h2, hreq, _, _, _, _, _⟩ := Remove_main hi0 hiL
    rw [hreq]
    rfl

/-- C8 witness: the faults and the non-faults at concrete heaps. -/
theorem C8_witness :
    Pop ({ e := [], l := boolLess } : heap Bool) = none ∧
    Peek ({ e := [], l := boolLess } : heap Bool) = none ∧
    Remove ({ e := [], l := boolLess } : heap Bool) 0 = none ∧
    Remove ({ e := [true], l := boolLess } : heap Bool) 5 = none ∧
    (Pop ({ e := [true], l := boolLess } : heap Bool)).isSome = true := by
  obtain ⟨he, _, _, _⟩ := C8_faults_and_preconditions ({ e := [], l := boolLess } : heap Bool) 0
  obtain ⟨hp0, hpk0, hr0⟩ := he (by decide)
  obtain ⟨_, hoob, hsome, _⟩ :=
    C8_faults_and_preconditions ({ e := [true], l := boolLess } : heap Bool) 5
  exact ⟨hp0, hpk0, hr0, hoob (by decide), (hsome (by decide)).1⟩

/-- C9: wrapping is idempotent.  `Concurrent` applied to any already-wrapped
value returns that very value unchanged (no nesting), and in particular
`Concurrent (Concurrent h) = Concurrent h` for every interface value `h`. -/
theorem C9_concurrent_idempotent {E : Type} :
    (∀ h : HeapI E, Concurrent (Concurrent h) = Concurrent h) ∧
    (∀ h : HeapI E, Concurrent (HeapI.con h) = HeapI.con h) := by
  constructor
  · intro h
    cases h
    · rfl
    · rfl
  · intro h
    rfl

/-- C10: wrapping a plain heap yields a distinct wrapper value whose every
operation forwards to the wrapped heap: `Len`, `Peek`, `Push`, `Pop`,
`Remove`, `Fix` and `Queue` through the wrapper return exactly the result of
the same call on the underlying heap (with the resulting state re-wrapped),
so sequential use of the wrapper is observationally identical to using the
plain heap. -/
theorem C10_wrapper_observationally_transparent {E S : Type} (h0 : heap E) :
    Concurrent (HeapI.plain h0) = HeapI.con (HeapI.plain h0) ∧
    Concurrent (HeapI.plain h0) ≠ HeapI.plain h0 ∧
    inner (Concurrent (HeapI.plain h0)) = h0 ∧
    LenI (Concurrent (HeapI.plain h0)) = Len h0 ∧
    PeekI (Concurrent (HeapI.plain h0)) = Peek h0 ∧
    (∀ x, PushI (Concurrent (HeapI.plain h0)) x =
      (Push h0 x).map (fun h2 => HeapI.con (HeapI.plain h2))) ∧
    PopI (Concurrent (HeapI.plain h0)) =
      (Pop h0).map (fun p => (p.1, HeapI.con (HeapI.plain p.2))) ∧
    (∀ i, RemoveI (Concurrent (HeapI.plain h0)) i =
      (Remove h0 i).map (fun p => (p.1, HeapI.con (HeapI.plain p.2)))) ∧
    (∀ i, FixI (Concurrent (HeapI.plain h0)) i =
      (Fix h0 i).map (fun h2 => HeapI.con (HeapI.plain h2))) ∧
    (∀ (yield : S → E → Bool × S) (s : S),
      QueueI yield (Concurrent (HeapI.plain h0)) s =
        (Queue h0 yield s).map (fun p => (HeapI.con (HeapI.plain p.1), p.2))) := by
  refine ⟨rfl, ?_, rfl, rfl, rfl, ?_, ?_, ?_, ?_, ?_⟩
  · intro hEq
    exact HeapI.noConfusion hEq
  · intro x
    show (PushI (HeapI.plain h0) x).map HeapI.con = _
    rcases hP : Push h0 x with _ | h2
    · simp [PushI, hP]
    · simp [PushI, hP]
  · show (PopI (HeapI.plain h0)).map (fun p => (p.1, HeapI.con p.2)) = _
    rcases hP : Pop h0 with _ | p
    · simp [PopI, hP]
    · simp [PopI, hP]
  · intro i
    show (RemoveI (HeapI.plain h0) i).map (fun p => (p.1, HeapI.con p.2)) = _
    rcases hP : Remove h0 i with _ | p
    · simp [RemoveI, hP]
    · simp [RemoveI, hP]
  · intro i
    show (FixI (HeapI.plain h0) i).map HeapI.con = _
    rcases hP : Fix h0 i with _ | h2
    · simp [FixI, hP]
    · simp [FixI, hP]
  · intro yield s
    show (QueueI yield (HeapI.plain h0) s).map (fun p => (HeapI.con p.1, p.2)) = _
    rcases hP : Queue h0 yield s with _ | p
    · simp [QueueI, hP]
    · simp [QueueI, hP]

end HeapVerify
